import Mathlib

/-! # lwes-filter-listener: filtering, rendering and filter-spec parsing

A shallow embedding of `src/lwes-filter-listener.c`.

* C strings are lists of characters (the bytes before the terminating NUL).
* A `FILE *stream` is represented by the text written to it.
* `exit(1)` is an explicit outcome, carrying the diagnostic sent to `stderr`.
* Memory allocation (`calloc`, `asprintf`) is assumed to succeed.
-/

namespace Lwes

/-- C strings: the characters before the terminating NUL. -/
abbrev CStr := List Char

/-! ## libc conversions -/

/-- The `%hu`, `%u`, `%llu` conversions: decimal digits of an unsigned
integer of `w` bits. -/
def fmt_unsigned (w : Nat) (v : Nat) : CStr :=
  Nat.toDigits 10 (v % 2 ^ w)

/-- The value a two's-complement signed integer of `w` bits holds. -/
def wrap_signed (w : Nat) (v : Int) : Int :=
  (v + 2 ^ (w - 1)) % 2 ^ w - 2 ^ (w - 1)

/-- The `%hd`, `%d`, `%lld` conversions: decimal digits of a signed integer
of `w` bits, with a minus sign when it is negative. -/
def fmt_signed (w : Nat) (v : Int) : CStr :=
  let x := wrap_signed w v
  if x < 0 then '-' :: Nat.toDigits 10 x.natAbs else Nat.toDigits 10 x.toNat

/-- The libc `inet_ntoa`: dotted-decimal form of the four octets of
a `struct in_addr`, in memory (network) order. -/
def inet_ntoa (b1 b2 b3 b4 : Nat) : CStr :=
  fmt_unsigned 8 b1 ++ '.' :: fmt_unsigned 8 b2 ++ '.' :: fmt_unsigned 8 b3
    ++ '.' :: fmt_unsigned 8 b4

/-- The libc `asprintf`: stores the formatted text in `*strp` and returns the
number of bytes printed. -/
def asprintf (text : CStr) : Int × Option CStr :=
  ((text.length : Int), some text)

/-! ## Data model -/

/-- An attribute: the type token together with the value it points to.
`UNDEFINED` stands for every type token other than the nine the listener
tests for (the final `else` branches). -/
inductive lwes_event_attribute
  | U_INT_16 (value : Nat)
  | INT_16 (value : Int)
  | U_INT_32 (value : Nat)
  | INT_32 (value : Int)
  | U_INT_64 (value : Nat)
  | INT_64 (value : Int)
  | BOOLEAN (value : Int)
  | IP_ADDR (b1 b2 b3 b4 : Nat)
  | STRING (value : CStr)
  | UNDEFINED (tag : Nat)
  deriving DecidableEq, Repr

/-- Modelled from the spec: `struct lwes_event` and the attribute hash
(`lwes_hash_get`, `lwes_hash_keys` and its enumeration) are declared outside
`src/`. An event is a name, the stored attribute counter and the mapping from
attribute names to attributes, kept as an association list in enumeration
order. -/
structure lwes_event where
  eventName : CStr
  number_of_attributes : Nat
  attributes : List (CStr × lwes_event_attribute)
  deriving DecidableEq, Repr

/-- Modelled from the spec: `lwes_hash_get`, the attribute stored under
`key`, or NULL when there is none. -/
def lwes_hash_get (attributes : List (CStr × lwes_event_attribute))
    (key : CStr) : Option lwes_event_attribute :=
  List.lookup key attributes

/-- Modelled from the spec: the keys `lwes_hash_keys` enumerates, in the
mapping's enumeration order. -/
def lwes_hash_keys (attributes : List (CStr × lwes_event_attribute)) :
    List CStr :=
  attributes.map Prod.fst

/-- Modelled from the spec: the data-model invariant of an event. Attribute
names are unique, and the stored counter is the number of attributes and fits
the 16-bit field that holds it. -/
def lwes_event.wellFormed (event : lwes_event) : Prop :=
  (lwes_hash_keys event.attributes).Nodup
    ∧ event.number_of_attributes = event.attributes.length
    ∧ event.number_of_attributes < 65536

instance (event : lwes_event) : Decidable event.wellFormed := by
  unfold lwes_event.wellFormed; infer_instance

/-- How a call ends: `return 0` with the text it wrote to `stream`, or
`exit(status)` with the diagnostic it wrote to `stderr`. -/
inductive Outcome
  | returned (written : CStr)
  | exited (status : Nat) (diagnostic : CStr)
  deriving DecidableEq, Repr

/-- The text a call put on `stream`. -/
def Outcome.written : Outcome → CStr
  | .returned w => w
  | .exited _ _ => []

/-! ## Display formatters (`fprintf` to the stream)

Each returns the text written; the `int` result of the C functions is
ignored by every caller. -/

def lwes_U_INT_16_to_stream (a_uint16 : Nat) : CStr := fmt_unsigned 16 a_uint16

def lwes_INT_16_to_stream (an_int16 : Int) : CStr := fmt_signed 16 an_int16

def lwes_U_INT_32_to_stream (a_uint32 : Nat) : CStr := fmt_unsigned 32 a_uint32

def lwes_INT_32_to_stream (an_int32 : Int) : CStr := fmt_signed 32 an_int32

def lwes_U_INT_64_to_stream (a_uint64 : Nat) : CStr := fmt_unsigned 64 a_uint64

def lwes_INT_64_to_stream (an_int64 : Int) : CStr := fmt_signed 64 an_int64

def lwes_BOOLEAN_to_stream (a_boolean : Int) : CStr :=
  if a_boolean = 1 then "true".toList else "false".toList

def lwes_IP_ADDR_to_stream (b1 b2 b3 b4 : Nat) : CStr := inet_ntoa b1 b2 b3 b4

def lwes_SHORT_STRING_to_stream (a_string : CStr) : CStr := a_string

def lwes_LONG_STRING_to_stream (a_string : CStr) : CStr := a_string

def lwes_event_attribute_to_stream : lwes_event_attribute → CStr
  | .U_INT_16 v => lwes_U_INT_16_to_stream v
  | .INT_16 v => lwes_INT_16_to_stream v
  | .U_INT_32 v => lwes_U_INT_32_to_stream v
  | .INT_32 v => lwes_INT_32_to_stream v
  | .U_INT_64 v => lwes_U_INT_64_to_stream v
  | .INT_64 v => lwes_INT_64_to_stream v
  | .BOOLEAN v => lwes_BOOLEAN_to_stream v
  | .IP_ADDR b1 b2 b3 b4 => lwes_IP_ADDR_to_stream b1 b2 b3 b4
  | .STRING s => lwes_LONG_STRING_to_stream s
  | .UNDEFINED _ => []

/-! ## Filter formatters (`asprintf` into a fresh string)

Each returns the `int` result and the string stored in `*strp`. -/

def lwes_U_INT_16_to_string (a_uint16 : Nat) : Int × Option CStr :=
  asprintf (fmt_unsigned 16 a_uint16)

def lwes_INT_16_to_string (an_int16 : Int) : Int × Option CStr :=
  asprintf (fmt_signed 16 an_int16)

def lwes_U_INT_32_to_string (a_uint32 : Nat) : Int × Option CStr :=
  asprintf (fmt_unsigned 32 a_uint32)

def lwes_INT_32_to_string (an_int32 : Int) : Int × Option CStr :=
  asprintf (fmt_signed 32 an_int32)

def lwes_U_INT_64_to_string (a_uint64 : Nat) : Int × Option CStr :=
  asprintf (fmt_unsigned 64 a_uint64)

def lwes_INT_64_to_string (an_int64 : Int) : Int × Option CStr :=
  asprintf (fmt_signed 64 an_int64)

def lwes_BOOLEAN_to_string (a_boolean : Int) : Int × Option CStr :=
  asprintf (if a_boolean = 1 then "true".toList else "false".toList)

def lwes_IP_ADDR_to_string (b1 b2 b3 b4 : Nat) : Int × Option CStr :=
  asprintf (inet_ntoa b1 b2 b3 b4)

def lwes_LONG_STRING_to_string (a_string : CStr) : Int × Option CStr :=
  asprintf a_string

def lwes_event_attribute_to_string : lwes_event_attribute → Int × Option CStr
  | .U_INT_16 v => lwes_U_INT_16_to_string v
  | .INT_16 v => lwes_INT_16_to_string v
  | .U_INT_32 v => lwes_U_INT_32_to_string v
  | .INT_32 v => lwes_INT_32_to_string v
  | .U_INT_64 v => lwes_U_INT_64_to_string v
  | .INT_64 v => lwes_INT_64_to_string v
  | .BOOLEAN v => lwes_BOOLEAN_to_string v
  | .IP_ADDR b1 b2 b3 b4 => lwes_IP_ADDR_to_string b1 b2 b3 b4
  | .STRING s => lwes_LONG_STRING_to_string s
  | .UNDEFINED _ => (-1, none)

/-! ## `lwes_event_to_stream` -/

/-- The `while (event_names && *event_names)` loop: the final value of
`match`. -/
def event_names_loop (eventName : CStr) : List CStr → Bool
  | [] => false
  | name :: rest =>
    if eventName = name then true else event_names_loop eventName rest

/-- How the `while (*attr_list && match)` loop ends: the early `return 0`
for a field that is not set, `exit(1)` after a formatting result `ret`, or
falling out of the loop with the final value of `match`. -/
inductive AttrLoop
  | return0
  | exit1 (ret : Int)
  | finished (matched : Bool)
  deriving DecidableEq, Repr

/-- The `while (*attr_list && match)` loop over the pairs of `attr_list`,
started with the current value of `match`. -/
def attr_list_loop (attributes : List (CStr × lwes_event_attribute)) :
    List (CStr × CStr) → Bool → AttrLoop
  | [], matched => .finished matched
  | (key, expected) :: rest, matched =>
    if matched = false then .finished matched
    else
      match lwes_hash_get attributes key with
      | none => .return0
      | some value =>
        let r := lwes_event_attribute_to_string value
        if r.1 ≤ 0 ∨ r.2 = none then .exit1 r.1
        else if r.2 ≠ some expected then attr_list_loop attributes rest false
        else attr_list_loop attributes rest matched

/-- The body of the enumeration loop, over the enumerated keys: each key is
looked up again and written as `key = value;`. A key that is enumerated is
always found, so the `none` branch (a NULL attribute) is never taken. -/
def attributes_to_stream (attributes : List (CStr × lwes_event_attribute)) :
    List CStr → CStr
  | [] => []
  | tmpAttrName :: rest =>
    match lwes_hash_get attributes tmpAttrName with
    | some tmp =>
      lwes_SHORT_STRING_to_stream tmpAttrName ++ " = ".toList
        ++ lwes_event_attribute_to_stream tmp ++ ";".toList
        ++ attributes_to_stream attributes rest
    | none =>
      lwes_SHORT_STRING_to_stream tmpAttrName ++ " = ".toList ++ ";".toList
        ++ attributes_to_stream attributes rest

/-- The text the printing part of `lwes_event_to_stream` (from the event
name to the closing brace and newline) writes; `lwes_hash_keys` is taken to
succeed on the attribute hash of an event. -/
def event_text (event : lwes_event) : CStr :=
  lwes_SHORT_STRING_to_stream event.eventName ++ "[".toList
    ++ lwes_U_INT_16_to_stream event.number_of_attributes ++ "]".toList
    ++ " \x7b".toList
    ++ attributes_to_stream event.attributes (lwes_hash_keys event.attributes)
    ++ "\x7d\n".toList

/-- One `key = value;` group of the printed line. -/
def attribute_group (p : CStr × lwes_event_attribute) : CStr :=
  p.1 ++ " = ".toList ++ lwes_event_attribute_to_stream p.2 ++ ";".toList

/-- The diagnostic of the formatting failure branch. -/
def format_diagnostic (ret : Int) : CStr :=
  "Internal error while formatting a field (result=".toList
    ++ fmt_signed 32 ret ++ ")!\n".toList

/-- The C function `lwes_event_to_stream`: `event_names` and `attr_list` are
NULL (`none`) or NULL-terminated arrays; `attr_list` holds
key1,value1,key2,value2,... and is kept as the list of its pairs. -/
def lwes_event_to_stream (event : lwes_event)
    (event_names : Option (List CStr))
    (attr_list : Option (List (CStr × CStr))) : Outcome :=
  let name_matched :=
    match event_names with
    | none => true
    | some names => event_names_loop event.eventName names
  if name_matched = false then .returned []
  else
    match attr_list with
    | none => .returned (event_text event)
    | some pairs =>
      match attr_list_loop event.attributes pairs true with
      | .return0 => .returned []
      | .exit1 ret => .exited 1 (format_diagnostic ret)
      | .finished matched =>
        if matched = false then .returned [] else .returned (event_text event)

/-! ## Parsing the `-e` and `-a` options -/

/-- The `while (*string)` loop of `count_fields`, started with the current
value of `fields`. -/
def count_fields_loop (delim : Char) : CStr → Nat → Nat
  | [], fields => fields
  | c :: rest, fields =>
    count_fields_loop delim rest (if delim = c then fields + 1 else fields)

/-- The C function `count_fields` (its argument is never NULL here). -/
def count_fields (string : CStr) (delim : Char) : Nat :=
  if string ≠ [] then count_fields_loop delim string 1 else 0

/-- The libc `strtok_r`, on the text the scan continues from (`str` on the
first call, `*saveptr` on the calls with a NULL `str`). Leading delimiters
are skipped; NULL (`none`) when nothing is left, otherwise the token up to
the next delimiter, together with the new `*saveptr`: the text after that
delimiter, which is overwritten by NUL. -/
def strtok_r (s : CStr) (delim : CStr) : Option (CStr × CStr) :=
  match s.dropWhile (fun c => decide (c ∈ delim)) with
  | [] => none
  | c :: cs =>
    some ((c :: cs).takeWhile (fun x => decide (x ∉ delim)),
      ((c :: cs).dropWhile (fun x => decide (x ∉ delim))).drop 1)

/-- How a parser ends: it returns NULL (`none`) or the NULL-terminated array
(`some`), or it calls `exit(status)` after a diagnostic on `stderr`.
`out_of_fuel` is the bound of the loop model; the parsers never reach it. -/
inductive Parsed (α : Type)
  | returned (result : Option (List α))
  | exited (status : Nat) (diagnostic : CStr)
  | out_of_fuel
  deriving DecidableEq, Repr

/-- The diagnostic of `parse_comma_separated_list`. -/
def list_diagnostic : CStr :=
  "Internal error while parsing a comma-separated list!\n".toList

/-- The diagnostic of `parse_attr_list` for a missing key. -/
def key_diagnostic : CStr :=
  "Internal error while parsing a key from a ".toList
    ++ "comma-separated list of pairs!\n".toList

/-- The diagnostic of `parse_attr_list` for a missing value. -/
def value_diagnostic : CStr :=
  "Internal error while parsing a value from a ".toList
    ++ "comma-separated list of pairs!\n".toList

/-- The `while ((token = strtok_r(arg, ",", &saveptr)))` loop of
`parse_comma_separated_list`: `cur` is the text the next `strtok_r` call
scans, `result` the entries written so far (`field` is its length). -/
def comma_list_loop : Nat → CStr → List CStr → Option (List CStr)
  | 0, _, _ => none
  | fuel + 1, cur, result =>
    match strtok_r cur ",".toList with
    | none => some result
    | some (token, saveptr) => comma_list_loop fuel saveptr (result ++ [token])

/-- The C function `parse_comma_separated_list`. -/
def parse_comma_separated_list (arg : CStr) : Parsed CStr :=
  let fields := count_fields arg ','
  if fields > 0 then
    match comma_list_loop (arg.length + 1) arg [] with
    | none => .out_of_fuel
    | some result =>
      if result.length = fields then .returned (some result)
      else .exited 1 list_diagnostic
  else .returned none

/-- The `while ((token = strtok_r(arg, ",", &saveptr1)))` loop of
`parse_attr_list`: `cur` is the text the next outer `strtok_r` call scans,
`result` the pairs written so far (`field` is its length). -/
def attr_pairs_loop : Nat → CStr → List (CStr × CStr) → Parsed (CStr × CStr)
  | 0, _, _ => .out_of_fuel
  | fuel + 1, cur, result =>
    match strtok_r cur ",".toList with
    | none => .returned (some result)
    | some (token, saveptr1) =>
      match strtok_r token "=".toList with
      | none => .exited 1 key_diagnostic
      | some (key, saveptr2) =>
        match strtok_r saveptr2 "=".toList with
        | none => .exited 1 value_diagnostic
        | some (value, _) =>
          attr_pairs_loop fuel saveptr1 (result ++ [(key, value)])

/-- The C function `parse_attr_list`; the array key1,value1,key2,value2,...
is kept as the list of its pairs. -/
def parse_attr_list (arg : CStr) : Parsed (CStr × CStr) :=
  let num_fields := count_fields arg ','
  if num_fields > 0 then attr_pairs_loop (arg.length + 1) arg []
  else .returned none

/-- The text of one `key=value` field. -/
def pair_field (p : CStr × CStr) : CStr := p.1 ++ '=' :: p.2

/-! ## The naive split, used to state what the parsers return -/

/-- The non-empty fields of the naive split of `s` on the character `d`, in
order. -/
def tokens (d : Char) (s : CStr) : List CStr :=
  (s.splitOn d).filter fun f => decide (f ≠ [])

/-- The pair a field gives: its first and its second non-empty segment of
the split on `=`. -/
def pair_of_field (f : CStr) : CStr × CStr :=
  ((tokens '=' f).getD 0 [], (tokens '=' f).getD 1 [])

/-! ## The array writes of the parsers -/

/-- The indices of `result` the loop of `parse_comma_separated_list` writes
(`result[field++] = token`), in order, started with the current value of
`field`. -/
def comma_list_writes : Nat → CStr → Nat → List Nat
  | 0, _, _ => []
  | fuel + 1, cur, field =>
    match strtok_r cur ",".toList with
    | none => []
    | some (_, saveptr) => field :: comma_list_writes fuel saveptr (field + 1)

/-- All indices of `result` that `parse_comma_separated_list` writes: those
of the loop and then, when `field == fields`, the one of the terminating
`result[field] = NULL`. -/
def parse_comma_separated_list_writes (arg : CStr) : List Nat :=
  let fields := count_fields arg ','
  if fields > 0 then
    let written := comma_list_writes (arg.length + 1) arg 0
    if written.length = fields then written ++ [written.length] else written
  else []

/-- The indices of `result` the loop of `parse_attr_list` writes
(`result[2*field]`, then `result[2*field+1]`), in order, started with the
current value of `field`; the writes made just before an `exit(1)` are
included. -/
def attr_pairs_writes : Nat → CStr → Nat → List Nat
  | 0, _, _ => []
  | fuel + 1, cur, field =>
    match strtok_r cur ",".toList with
    | none => []
    | some (token, saveptr1) =>
      match strtok_r token "=".toList with
      | none => [2 * field]
      | some (_, saveptr2) =>
        match strtok_r saveptr2 "=".toList with
        | none => [2 * field, 2 * field + 1]
        | some _ =>
          2 * field :: (2 * field + 1)
            :: attr_pairs_writes fuel saveptr1 (field + 1)

/-- All indices of `result` that `parse_attr_list` writes. -/
def parse_attr_list_writes (arg : CStr) : List Nat :=
  let num_fields := count_fields arg ','
  if num_fields > 0 then attr_pairs_writes (arg.length + 1) arg 0 else []

/-! ## Reading decimal numerals, used to state the integer renderings -/

/-- The number a text of decimal digits denotes. -/
def read_digits (s : CStr) : Nat :=
  s.foldl (fun acc c => 10 * acc + (c.toNat - '0'.toNat)) 0

/-- The integer a decimal numeral with an optional leading minus sign
denotes. -/
def read_decimal : CStr → Int
  | '-' :: ds => -(read_digits ds : Int)
  | ds => (read_digits ds : Int)

/-- A canonical decimal numeral of a natural number: at least one
character, digits only, and no leading zero except for the single digit 0. -/
def canonical_digits (ds : CStr) : Prop :=
  ds ≠ [] ∧ (∀ c ∈ ds, c.isDigit = true) ∧ (ds.head? = some '0' → ds = ['0'])

/-- The integer an attribute of one of the six integer variants holds, when
it lies within the range of the variant's width. -/
def integer_value : lwes_event_attribute → Option Int
  | .U_INT_16 v => if v < 2 ^ 16 then some (v : Int) else none
  | .INT_16 v => if -(2 ^ 15) ≤ v ∧ v < 2 ^ 15 then some v else none
  | .U_INT_32 v => if v < 2 ^ 32 then some (v : Int) else none
  | .INT_32 v => if -(2 ^ 31) ≤ v ∧ v < 2 ^ 31 then some v else none
  | .U_INT_64 v => if v < 2 ^ 64 then some (v : Int) else none
  | .INT_64 v => if -(2 ^ 63) ≤ v ∧ v < 2 ^ 63 then some v else none
  | _ => none

/-! ## Lemmas on the filter step -/

theorem event_names_loop_eq_true_iff (eventName : CStr) (names : List CStr) :
    event_names_loop eventName names = true ↔ eventName ∈ names := by
  induction names with
  | nil => simp [event_names_loop]
  | cons name rest ih =>
    by_cases h : eventName = name
    · simp [event_names_loop, h]
    · simp [event_names_loop, h, ih]

theorem event_text_ne_nil (event : lwes_event) : event_text event ≠ [] := by
  simp [event_text]

theorem to_string_result_eq_length (a : lwes_event_attribute) (t : CStr)
    (h : (lwes_event_attribute_to_string a).2 = some t) :
    (lwes_event_attribute_to_string a).1 = (t.length : Int) := by
  cases a <;>
    simp_all [lwes_event_attribute_to_string, lwes_U_INT_16_to_string,
      lwes_INT_16_to_string, lwes_U_INT_32_to_string, lwes_INT_32_to_string,
      lwes_U_INT_64_to_string, lwes_INT_64_to_string, lwes_BOOLEAN_to_string,
      lwes_IP_ADDR_to_string, lwes_LONG_STRING_to_string, asprintf]

theorem attr_list_loop_false (attributes : List (CStr × lwes_event_attribute))
    (pairs : List (CStr × CStr)) :
    attr_list_loop attributes pairs false = .finished false := by
  cases pairs <;> simp [attr_list_loop]

theorem attr_list_loop_true_iff
    (attributes : List (CStr × lwes_event_attribute))
    (pairs : List (CStr × CStr)) (hne : ∀ p ∈ pairs, p.2 ≠ []) :
    attr_list_loop attributes pairs true = .finished true ↔
      ∀ p ∈ pairs, ∃ a, lwes_hash_get attributes p.1 = some a
        ∧ (lwes_event_attribute_to_string a).2 = some p.2 := by
  induction pairs with
  | nil => simp [attr_list_loop]
  | cons p rest ih =>
    obtain ⟨key, expected⟩ := p
    have hexp : expected ≠ [] := hne (key, expected) (by simp)
    have ih2 := ih (fun q hq => hne q (by simp [hq]))
    cases hget : lwes_hash_get attributes key with
    | none => simp [attr_list_loop, hget]
    | some value =>
      by_cases hfmt : (lwes_event_attribute_to_string value).2 = some expected
      · have hlen := to_string_result_eq_length value expected hfmt
        have hpos : ¬ (lwes_event_attribute_to_string value).1 ≤ 0 := by
          rw [hlen]
          have : 0 < expected.length := List.length_pos.mpr hexp
          omega
        simp [attr_list_loop, hget, hfmt, hpos, ih2]
      · by_cases hbad : (lwes_event_attribute_to_string value).1 ≤ 0
            ∨ (lwes_event_attribute_to_string value).2 = none
        · simp [attr_list_loop, hget, hfmt, hbad]
        · simp [attr_list_loop, hget, hfmt, hbad, attr_list_loop_false]

theorem attr_list_loop_mismatch
    (attributes : List (CStr × lwes_event_attribute)) (key expected t : CStr)
    (rest : List (CStr × CStr)) (value : lwes_event_attribute)
    (hget : lwes_hash_get attributes key = some value)
    (hfmt : (lwes_event_attribute_to_string value).2 = some t)
    (ht : t ≠ []) (hdiff : t ≠ expected) :
    attr_list_loop attributes ((key, expected) :: rest) true
      = .finished false := by
  have hlen := to_string_result_eq_length value t hfmt
  have hpos : ¬ (lwes_event_attribute_to_string value).1 ≤ 0 := by
    rw [hlen]
    have : 0 < t.length := List.length_pos.mpr ht
    omega
  simp [attr_list_loop, hget, hfmt, hpos, hdiff, attr_list_loop_false]

theorem attr_list_loop_written (event : lwes_event)
    (pairs : List (CStr × CStr))
    (h : attr_list_loop event.attributes pairs true ≠ .finished true) :
    (lwes_event_to_stream event none (some pairs)).written = [] := by
  simp only [lwes_event_to_stream]
  cases hl : attr_list_loop event.attributes pairs true with
  | return0 => simp [Outcome.written]
  | exit1 ret => simp [Outcome.written]
  | finished m =>
    cases m with
    | false => simp [Outcome.written]
    | true => exact absurd hl h

theorem to_stream_of_name_mem (event : lwes_event) (names : List CStr)
    (attr_list : Option (List (CStr × CStr)))
    (h : event.eventName ∈ names) :
    lwes_event_to_stream event (some names) attr_list
      = lwes_event_to_stream event none attr_list := by
  have := (event_names_loop_eq_true_iff event.eventName names).mpr h
  simp [lwes_event_to_stream, this]

theorem to_stream_of_name_not_mem (event : lwes_event) (names : List CStr)
    (attr_list : Option (List (CStr × CStr)))
    (h : event.eventName ∉ names) :
    lwes_event_to_stream event (some names) attr_list = .returned [] := by
  have : event_names_loop event.eventName names = false := by
    cases hb : event_names_loop event.eventName names with
    | false => rfl
    | true => exact absurd ((event_names_loop_eq_true_iff _ _).mp hb) h
  simp [lwes_event_to_stream, this]

theorem to_stream_attr_pass_iff (event : lwes_event)
    (pairs : List (CStr × CStr)) :
    lwes_event_to_stream event none (some pairs) = .returned (event_text event)
      ↔ attr_list_loop event.attributes pairs true = .finished true := by
  have hne := event_text_ne_nil event
  simp only [lwes_event_to_stream]
  cases hl : attr_list_loop event.attributes pairs true with
  | return0 => simp [Ne.symm hne]
  | exit1 ret => simp
  | finished m => cases m <;> simp [Ne.symm hne]

theorem to_stream_eq_text_or_written_nil (event : lwes_event)
    (event_names : Option (List CStr))
    (attr_list : Option (List (CStr × CStr))) :
    lwes_event_to_stream event event_names attr_list
        = .returned (event_text event)
      ∨ (lwes_event_to_stream event event_names attr_list).written = [] := by
  have key : ∀ al : Option (List (CStr × CStr)),
      lwes_event_to_stream event none al = .returned (event_text event)
        ∨ (lwes_event_to_stream event none al).written = [] := by
    intro al
    cases al with
    | none => left; simp [lwes_event_to_stream]
    | some pairs =>
      by_cases h : attr_list_loop event.attributes pairs true = .finished true
      · left; exact (to_stream_attr_pass_iff event pairs).mpr h
      · right; exact attr_list_loop_written event pairs h
  cases event_names with
  | none => exact key attr_list
  | some names =>
    by_cases h : event.eventName ∈ names
    · rw [to_stream_of_name_mem event names attr_list h]; exact key attr_list
    · right
      rw [to_stream_of_name_not_mem event names attr_list h]
      rfl

theorem hash_get_of_mem (attributes : List (CStr × lwes_event_attribute))
    (hnd : (lwes_hash_keys attributes).Nodup) :
    ∀ p ∈ attributes, lwes_hash_get attributes p.1 = some p.2 := by
  induction attributes with
  | nil => simp
  | cons q rest ih =>
    obtain ⟨k, v⟩ := q
    simp only [lwes_hash_keys, List.map_cons, List.nodup_cons] at hnd
    intro p hp
    rcases List.mem_cons.mp hp with rfl | hp
    · simp [lwes_hash_get, List.lookup]
    · have hk : p.1 ≠ k := by
        intro hEq
        exact hnd.1 (hEq ▸ List.mem_map_of_mem Prod.fst hp)
      have := ih hnd.2 p hp
      have hb : (p.1 == k) = false := by simpa using hk
      simp only [lwes_hash_get] at this ⊢
      simp only [List.lookup, hb, this]

theorem attributes_to_stream_eq_flatten
    (attributes l : List (CStr × lwes_event_attribute))
    (h : ∀ p ∈ l, lwes_hash_get attributes p.1 = some p.2) :
    attributes_to_stream attributes (l.map Prod.fst)
      = (l.map attribute_group).flatten := by
  induction l with
  | nil => simp [attributes_to_stream]
  | cons p rest ih =>
    have hp := h p (by simp)
    have ih2 := ih (fun q hq => h q (by simp [hq]))
    simp [attributes_to_stream, hp, ih2, attribute_group,
      lwes_SHORT_STRING_to_stream]

theorem event_text_of_wellFormed (event : lwes_event)
    (hwf : event.wellFormed) :
    event_text event
      = event.eventName ++ "[".toList
          ++ Nat.toDigits 10 event.attributes.length ++ "] \x7b".toList
          ++ (event.attributes.map attribute_group).flatten ++ "\x7d\n".toList := by
  obtain ⟨hnd, hcount, hlt⟩ := hwf
  have hjoin := attributes_to_stream_eq_flatten event.attributes event.attributes
    (hash_get_of_mem event.attributes hnd)
  have hmod : event.number_of_attributes % 2 ^ 16 = event.attributes.length := by
    rw [← hcount]; exact Nat.mod_eq_of_lt (by simpa using hlt)
  simp only [event_text, lwes_hash_keys, hjoin, lwes_SHORT_STRING_to_stream,
    lwes_U_INT_16_to_stream, fmt_unsigned, hmod]
  simp

/-! ## Lemmas on the tokenizer and the parsers -/

theorem strtok_r_nil (delim : CStr) : strtok_r [] delim = none := rfl

theorem strtok_r_token (tok rest : CStr) (d : Char) (hne : tok ≠ [])
    (hd : d ∉ tok) : strtok_r (tok ++ d :: rest) [d] = some (tok, rest) := by
  obtain ⟨c, cs, rfl⟩ := List.exists_cons_of_ne_nil hne
  have hc : c ≠ d := fun h => hd (by simp [h])
  have hall : ∀ a ∈ c :: cs, (fun x => decide (x ∉ [d])) a = true := by
    intro a ha
    have : a ≠ d := fun h => hd (h ▸ ha)
    simpa using this
  have hdrop : (c :: cs ++ d :: rest).dropWhile (fun x => decide (x ∈ [d]))
      = c :: (cs ++ d :: rest) := by
    simp [List.dropWhile_cons, hc]
  unfold strtok_r
  rw [hdrop]
  simp only [Option.some.injEq, Prod.mk.injEq]
  constructor
  · have := @List.takeWhile_append_of_pos _ _ (c :: cs) (d :: rest) hall
    simpa using this
  · have := @List.dropWhile_append_of_pos _ _ (c :: cs) (d :: rest) hall
    rw [show c :: (cs ++ d :: rest) = (c :: cs) ++ d :: rest from rfl, this]
    simp

theorem strtok_r_last (tok : CStr) (d : Char) (hne : tok ≠ []) (hd : d ∉ tok) :
    strtok_r tok [d] = some (tok, []) := by
  obtain ⟨c, cs, rfl⟩ := List.exists_cons_of_ne_nil hne
  have hc : c ≠ d := fun h => hd (by simp [h])
  have hall : ∀ a ∈ c :: cs, (fun x => decide (x ∉ [d])) a = true := by
    intro a ha
    have : a ≠ d := fun h => hd (h ▸ ha)
    simpa using this
  have hdrop : (c :: cs).dropWhile (fun x => decide (x ∈ [d])) = c :: cs := by
    simp [List.dropWhile_cons, hc]
  unfold strtok_r
  rw [hdrop]
  simp only [Option.some.injEq, Prod.mk.injEq]
  constructor
  · exact List.takeWhile_eq_self_iff.mpr hall
  · have : (c :: cs).dropWhile (fun x => decide (x ∉ [d])) = [] :=
      List.dropWhile_eq_nil_iff.mpr hall
    rw [this]; rfl

theorem count_fields_loop_eq (delim : Char) (s : CStr) (fields : Nat) :
    count_fields_loop delim s fields = fields + s.count delim := by
  induction s generalizing fields with
  | nil => simp [count_fields_loop]
  | cons c rest ih =>
    by_cases h : delim = c
    · subst h
      simp [count_fields_loop, ih]
      omega
    · have hc : (c == delim) = false := by
        simpa using fun h2 : c = delim => h h2.symm
      simp [count_fields_loop, ih, h, List.count_cons, hc]

theorem count_fields_eq (s : CStr) (delim : Char) (h : s ≠ []) :
    count_fields s delim = 1 + s.count delim := by
  simp [count_fields, h, count_fields_loop_eq]

theorem count_fields_pos (s : CStr) (delim : Char) (h : s ≠ []) :
    0 < count_fields s delim := by
  rw [count_fields_eq s delim h]; omega

theorem intercalate_cons_cons (sep x y : CStr) (rest : List CStr) :
    List.intercalate sep (x :: y :: rest)
      = x ++ sep ++ List.intercalate sep (y :: rest) := by
  simp [List.intercalate]

theorem intercalate_singleton (sep x : CStr) :
    List.intercalate sep [x] = x := by
  simp [List.intercalate]

theorem comma_toList : ",".toList = [','] := rfl

theorem equals_toList : "=".toList = ['='] := rfl

theorem comma_list_loop_done (fuel : Nat) (acc : List CStr) (h : 0 < fuel) :
    comma_list_loop fuel [] acc = some acc := by
  cases fuel with
  | zero => omega
  | succ f => simp [comma_list_loop, strtok_r_nil]

theorem comma_list_loop_names (names : List CStr)
    (h : ∀ n ∈ names, n ≠ [] ∧ ',' ∉ n) :
    ∀ (fuel : Nat) (acc : List CStr),
      (List.intercalate [','] names).length < fuel →
      comma_list_loop fuel (List.intercalate [','] names) acc
        = some (acc ++ names) := by
  induction names with
  | nil =>
    intro fuel acc hf
    simpa [List.intercalate] using comma_list_loop_done fuel acc (by omega)
  | cons x tl ih =>
    intro fuel acc hf
    obtain ⟨hx, hxc⟩ := h x (by simp)
    have hxlen : 0 < x.length := List.length_pos.mpr hx
    cases tl with
    | nil =>
      rw [intercalate_singleton] at hf ⊢
      cases fuel with
      | zero => omega
      | succ f =>
        simp only [comma_list_loop, comma_toList, strtok_r_last x ',' hx hxc]
        exact comma_list_loop_done f _ (by omega)
    | cons y rest =>
      rw [intercalate_cons_cons] at hf ⊢
      cases fuel with
      | zero => omega
      | succ f =>
        have hstep := strtok_r_token x (List.intercalate [','] (y :: rest)) ','
          hx hxc
        simp only [List.append_assoc, List.singleton_append] at hf ⊢
        simp only [comma_list_loop, comma_toList, hstep]
        rw [ih (fun n hn => h n (by simp [hn])) f (acc ++ [x])
          (by simp only [List.length_append, List.length_cons] at hf; omega)]
        simp

theorem count_intercalate (names : List CStr) (hne : names ≠ [])
    (h : ∀ n ∈ names, ',' ∉ n) :
    (List.intercalate [','] names).count ',' + 1 = names.length := by
  induction names with
  | nil => exact absurd rfl hne
  | cons x tl ih =>
    have hx : x.count ',' = 0 := List.count_eq_zero.mpr (h x (by simp))
    cases tl with
    | nil => simp [intercalate_singleton, hx]
    | cons y rest =>
      have := ih (by simp) (fun n hn => h n (by simp [hn]))
      rw [intercalate_cons_cons]
      simp only [List.count_append, hx, List.length_cons] at this ⊢
      simp only [List.count_singleton_self]
      omega

theorem intercalate_ne_nil (names : List CStr) (hne : names ≠ [])
    (h : ∀ n ∈ names, n ≠ []) : List.intercalate [','] names ≠ [] := by
  cases names with
  | nil => exact absurd rfl hne
  | cons x tl =>
    have hx := h x (by simp)
    cases tl with
    | nil => simpa [intercalate_singleton] using hx
    | cons y rest => rw [intercalate_cons_cons]; simp [hx]

theorem attr_pairs_loop_done (fuel : Nat) (acc : List (CStr × CStr))
    (h : 0 < fuel) : attr_pairs_loop fuel [] acc = .returned (some acc) := by
  cases fuel with
  | zero => omega
  | succ f => simp [attr_pairs_loop, strtok_r_nil]

theorem attr_pairs_loop_pairs (pairs : List (CStr × CStr))
    (h : ∀ p ∈ pairs, (p.1 ≠ [] ∧ ',' ∉ p.1 ∧ '=' ∉ p.1)
      ∧ (p.2 ≠ [] ∧ ',' ∉ p.2 ∧ '=' ∉ p.2)) :
    ∀ (fuel : Nat) (acc : List (CStr × CStr)),
      (List.intercalate [','] (pairs.map pair_field)).length < fuel →
      attr_pairs_loop fuel (List.intercalate [','] (pairs.map pair_field)) acc
        = .returned (some (acc ++ pairs)) := by
  induction pairs with
  | nil =>
    intro fuel acc hf
    simpa [List.intercalate] using attr_pairs_loop_done fuel acc (by omega)
  | cons p tl ih =>
    intro fuel acc hf
    obtain ⟨k, v⟩ := p
    obtain ⟨⟨hk, hkc, hke⟩, hv, hvc, hve⟩ := h (k, v) (by simp)
    have hfield : pair_field (k, v) ≠ [] := by simp [pair_field]
    have hfc : ',' ∉ pair_field (k, v) := by
      simp [pair_field, hkc, hvc]
    have hkey : strtok_r (pair_field (k, v)) ['='] = some (k, v) :=
      strtok_r_token k v '=' hk hke
    have hval : strtok_r v ['='] = some (v, []) := strtok_r_last v '=' hv hve
    cases tl with
    | nil =>
      simp only [List.map_cons, List.map_nil, intercalate_singleton] at hf ⊢
      cases fuel with
      | zero => omega
      | succ f =>
        simp only [attr_pairs_loop, comma_toList, equals_toList,
          strtok_r_last _ ',' hfield hfc, hkey, hval]
        have : 0 < (pair_field (k, v)).length := List.length_pos.mpr hfield
        exact attr_pairs_loop_done f _ (by omega)
    | cons q rest =>
      simp only [List.map_cons, intercalate_cons_cons] at hf ⊢
      cases fuel with
      | zero => omega
      | succ f =>
        have hstep := strtok_r_token (pair_field (k, v))
          (List.intercalate [','] (pair_field q :: rest.map pair_field)) ','
          hfield hfc
        simp only [List.append_assoc, List.singleton_append] at hf ⊢
        simp only [attr_pairs_loop, comma_toList, equals_toList, hstep, hkey,
          hval]
        have ih2 := ih (fun n hn => h n (by simp [hn])) f (acc ++ [(k, v)])
          (by
            simp only [List.map_cons, List.length_append, List.length_cons]
              at hf ⊢
            omega)
        simp only [List.map_cons] at ih2
        rw [ih2]
        simp

/-! ## The filter and the printed line (C1 to C6) -/

/-- C1: with every expected value non-empty, `lwes_event_to_stream` writes the
event's line exactly when the name filter is absent or holds the event's name
and the attribute constraint is absent or every pair's key has an attribute
whose `lwes_event_attribute_to_string` text equals the expected value;
otherwise nothing is written to the stream. -/
theorem lwes_event_to_stream_passes_iff (event : lwes_event)
    (event_names : Option (List CStr))
    (attr_list : Option (List (CStr × CStr)))
    (hne : ∀ pairs, attr_list = some pairs → ∀ p ∈ pairs, p.2 ≠ []) :
    (lwes_event_to_stream event event_names attr_list
        = .returned (event_text event)
      ↔ (∀ names, event_names = some names → event.eventName ∈ names)
        ∧ (∀ pairs, attr_list = some pairs → ∀ p ∈ pairs,
            ∃ a, lwes_hash_get event.attributes p.1 = some a
              ∧ (lwes_event_attribute_to_string a).2 = some p.2))
    ∧ (lwes_event_to_stream event event_names attr_list
          ≠ .returned (event_text event)
        → (lwes_event_to_stream event event_names attr_list).written = []) := by
  refine ⟨?_, fun h =>
    (to_stream_eq_text_or_written_nil event event_names attr_list).resolve_left h⟩
  have hattr : lwes_event_to_stream event none attr_list
        = .returned (event_text event)
      ↔ ∀ pairs, attr_list = some pairs → ∀ p ∈ pairs,
          ∃ a, lwes_hash_get event.attributes p.1 = some a
            ∧ (lwes_event_attribute_to_string a).2 = some p.2 := by
    cases attr_list with
    | none => simp [lwes_event_to_stream]
    | some pairs =>
      rw [to_stream_attr_pass_iff,
        attr_list_loop_true_iff event.attributes pairs (hne pairs rfl)]
      simp
  cases event_names with
  | none => simpa using hattr
  | some names =>
    by_cases h : event.eventName ∈ names
    · rw [to_stream_of_name_mem event names attr_list h, hattr]
      simp [h]
    · rw [to_stream_of_name_not_mem event names attr_list h]
      have hne2 := event_text_ne_nil event
      simp [h, Ne.symm hne2]

/-- C1, at the filter `-e Login,Logout -a status=ok`: a Login event whose
status renders to "ok" is written, the same event with status "fail" is
not. -/
theorem lwes_event_to_stream_passes_iff_witness :
    (∀ pairs, some [("status".toList, "ok".toList)] = some pairs →
        ∀ p ∈ pairs, p.2 ≠ [])
    ∧ lwes_event_to_stream
          ⟨"Login".toList, 1, [("status".toList, .STRING "ok".toList)]⟩
          (some ["Login".toList, "Logout".toList])
          (some [("status".toList, "ok".toList)])
        = .returned "Login[1] \x7bstatus = ok;\x7d\n".toList
    ∧ (lwes_event_to_stream
          ⟨"Login".toList, 1, [("status".toList, .STRING "fail".toList)]⟩
          (some ["Login".toList, "Logout".toList])
          (some [("status".toList, "ok".toList)])).written = [] := by
  have hne : ∀ pairs, some [("status".toList, "ok".toList)] = some pairs →
      ∀ p ∈ pairs, p.2 ≠ [] := by
    intro pairs h p hp
    cases h
    simp only [List.mem_singleton] at hp
    subst hp
    decide
  refine ⟨hne, ?_, ?_⟩
  · refine ((lwes_event_to_stream_passes_iff
      ⟨"Login".toList, 1, [("status".toList, .STRING "ok".toList)]⟩
      (some ["Login".toList, "Logout".toList])
      (some [("status".toList, "ok".toList)]) hne).1.mpr ⟨?_, ?_⟩).trans
        (by decide)
    · intro names h
      cases h
      decide
    · intro pairs h p hp
      cases h
      simp only [List.mem_singleton] at hp
      subst hp
      exact ⟨.STRING "ok".toList, by decide, by decide⟩
  · exact (lwes_event_to_stream_passes_iff
      ⟨"Login".toList, 1, [("status".toList, .STRING "fail".toList)]⟩
      (some ["Login".toList, "Logout".toList])
      (some [("status".toList, "ok".toList)]) hne).2 (by decide)

/-- C2, at the failing input: the constraint names the key `user`, which the
event lacks, yet the call ends in `exit(1)` because the earlier pair's
attribute is the empty string, whose formatting result is 0. -/
theorem missing_key_after_empty_string_exits :
    lwes_hash_get [("status".toList, lwes_event_attribute.STRING [])]
        "user".toList = none
    ∧ lwes_event_to_stream
          ⟨"Login".toList, 1, [("status".toList, .STRING [])]⟩ none
          (some [("status".toList, "ok".toList),
            ("user".toList, "alice".toList)])
        = .exited 1
            "Internal error while formatting a field (result=0)!\n".toList := by
  decide

/-- C3: with no name filter and no attribute constraint every event is
written: the call returns having written the event's line, which is never
empty. -/
theorem no_filter_accepts_all (event : lwes_event) :
    lwes_event_to_stream event none none = .returned (event_text event)
      ∧ event_text event ≠ [] :=
  ⟨by simp [lwes_event_to_stream], event_text_ne_nil event⟩

/-- C4: with a name filter present, an event whose name is in the list (at
any position, compared exactly) goes on as if there were no name filter, and
any other event returns with nothing written, whatever its attributes and
the attribute constraint are. -/
theorem name_filter_step (event : lwes_event) (names : List CStr)
    (attr_list : Option (List (CStr × CStr))) :
    lwes_event_to_stream event (some names) attr_list
      = if event.eventName ∈ names then
          lwes_event_to_stream event none attr_list
        else .returned [] := by
  by_cases h : event.eventName ∈ names
  · simp [h, to_stream_of_name_mem event names attr_list h]
  · simp [h, to_stream_of_name_not_mem event names attr_list h]

/-- C5, at the failing input: the key is present and its text (the empty
string) differs from the expected "ok", yet the call does not return and
instead ends in `exit(1)` with the formatting diagnostic. -/
theorem empty_string_mismatch_exits :
    (lwes_event_attribute_to_string (.STRING [])).2 ≠ some "ok".toList
    ∧ lwes_event_to_stream
          ⟨"Login".toList, 1, [("status".toList, .STRING [])]⟩ none
          (some [("status".toList, "ok".toList)])
        = .exited 1
            "Internal error while formatting a field (result=0)!\n".toList := by
  decide

/-- C6: an event that is written (on a well-formed event) produces exactly
the name, the attribute count in decimal between brackets, and between braces
one `key = value;` group per attribute in enumeration order, then a newline;
the count is the number of groups. -/
theorem event_line_format (event : lwes_event)
    (event_names : Option (List CStr))
    (attr_list : Option (List (CStr × CStr)))
    (hwf : event.wellFormed)
    (hpass : (lwes_event_to_stream event event_names attr_list).written ≠ []) :
    lwes_event_to_stream event event_names attr_list
        = .returned
            (event.eventName ++ "[".toList
              ++ Nat.toDigits 10 event.attributes.length ++ "] \x7b".toList
              ++ (event.attributes.map fun p =>
                    p.1 ++ " = ".toList ++ lwes_event_attribute_to_stream p.2
                      ++ ";".toList).flatten
              ++ "\x7d\n".toList)
      ∧ (event.attributes.map fun p =>
            p.1 ++ " = ".toList ++ lwes_event_attribute_to_stream p.2
              ++ ";".toList).length = event.attributes.length := by
  refine ⟨?_, by simp⟩
  rcases to_stream_eq_text_or_written_nil event event_names attr_list with h | h
  · rw [h, event_text_of_wellFormed event hwf]
    rfl
  · exact absurd h hpass

/-- C6, at the event Login with the single attribute user = "alice". -/
theorem event_line_format_witness :
    (lwes_event.wellFormed
        ⟨"Login".toList, 1, [("user".toList, .STRING "alice".toList)]⟩
      ∧ (lwes_event_to_stream
          ⟨"Login".toList, 1, [("user".toList, .STRING "alice".toList)]⟩
          none none).written ≠ [])
    ∧ lwes_event_to_stream
          ⟨"Login".toList, 1, [("user".toList, .STRING "alice".toList)]⟩
          none none
        = .returned "Login[1] \x7buser = alice;\x7d\n".toList :=
  ⟨⟨by decide, by decide⟩,
    (event_line_format
      ⟨"Login".toList, 1, [("user".toList, .STRING "alice".toList)]⟩
      none none (by decide) (by decide)).1.trans (by decide)⟩

/-! ## The option parsers (C7 to C10) -/

/-- C7: for a non-empty list of pairs whose keys and values are non-empty
and hold neither `,` nor `=`, `parse_attr_list` on the text
`k1=v1,k2=v2,...,kn=vn` returns, without error, exactly those pairs in that
order. -/
theorem parse_attr_list_pairs (pairs : List (CStr × CStr))
    (hne : pairs ≠ [])
    (h : ∀ p ∈ pairs, (p.1 ≠ [] ∧ ',' ∉ p.1 ∧ '=' ∉ p.1)
      ∧ (p.2 ≠ [] ∧ ',' ∉ p.2 ∧ '=' ∉ p.2)) :
    parse_attr_list
        (List.intercalate ",".toList
          (pairs.map fun p => p.1 ++ "=".toList ++ p.2))
      = .returned (some pairs) := by
  have hmap : (pairs.map fun p => p.1 ++ "=".toList ++ p.2)
      = pairs.map pair_field := by
    apply List.map_congr_left
    intro p _
    simp [pair_field, equals_toList]
  rw [hmap, comma_toList]
  have hnonempty : List.intercalate [','] (pairs.map pair_field) ≠ [] := by
    apply intercalate_ne_nil
    · simpa using hne
    · intro n hn
      obtain ⟨p, -, rfl⟩ := List.mem_map.mp hn
      simp [pair_field]
  have hpos := count_fields_pos _ ',' hnonempty
  simp only [parse_attr_list, hpos, if_true]
  simpa using attr_pairs_loop_pairs pairs h _ [] (Nat.lt_succ_self _)

/-- C7, at the text `k1=v1,k2=v2`. -/
theorem parse_attr_list_pairs_witness :
    ([("k1".toList, "v1".toList), ("k2".toList, "v2".toList)] ≠ []
      ∧ ∀ p ∈ [("k1".toList, "v1".toList), ("k2".toList, "v2".toList)],
          (p.1 ≠ [] ∧ ',' ∉ p.1 ∧ '=' ∉ p.1)
            ∧ (p.2 ≠ [] ∧ ',' ∉ p.2 ∧ '=' ∉ p.2))
    ∧ parse_attr_list "k1=v1,k2=v2".toList
        = .returned
            (some [("k1".toList, "v1".toList), ("k2".toList, "v2".toList)]) :=
  ⟨⟨by decide, by decide⟩,
    parse_attr_list_pairs
      [("k1".toList, "v1".toList), ("k2".toList, "v2".toList)]
      (by decide) (by decide)⟩

/-- C8, refuted: on `k1=v1=x` the value stops at the second `=`; the parser
returns the pair (k1, v1), not (k1, v1=x). -/
theorem parse_attr_list_second_equals_cuts :
    parse_attr_list "k1=v1=x".toList
        = .returned (some [("k1".toList, "v1".toList)])
    ∧ parse_attr_list "k1=v1=x".toList
        ≠ .returned (some [("k1".toList, "v1=x".toList)]) := by
  decide

/-- C8, amended: for a non-empty key without `,` or `=` and a non-empty
value text `v` without `,`, parsing `k=v` is fatal when `v` holds nothing but
`=`, and otherwise yields the single pair whose value is the part of `v`
after its leading `=` characters and before the next `=`. -/
theorem parse_attr_list_single (k v : CStr)
    (hk : k ≠ [] ∧ ',' ∉ k ∧ '=' ∉ k) (hv : v ≠ [] ∧ ',' ∉ v) :
    parse_attr_list (k ++ "=".toList ++ v)
      = if ∀ c ∈ v, c = '=' then .exited 1 value_diagnostic
        else
          .returned
            (some [(k,
              (v.dropWhile fun c => decide (c = '=')).takeWhile
                fun c => decide (c ≠ '='))]) := by
  obtain ⟨hk, hkc, hke⟩ := hk
  obtain ⟨hv, hvc⟩ := hv
  have harg : k ++ "=".toList ++ v = pair_field (k, v) := by
    simp [pair_field, equals_toList]
  rw [harg]
  have hfield : pair_field (k, v) ≠ [] := by simp [pair_field]
  have hfc : ',' ∉ pair_field (k, v) := by simp [pair_field, hkc, hvc]
  have hkey : strtok_r (pair_field (k, v)) ['='] = some (k, v) :=
    strtok_r_token k v '=' hk hke
  have hpos := count_fields_pos _ ',' hfield
  have hlen : 0 < (pair_field (k, v)).length := List.length_pos.mpr hfield
  simp only [parse_attr_list, hpos, if_true, attr_pairs_loop, comma_toList,
    equals_toList, strtok_r_last _ ',' hfield hfc, hkey]
  by_cases hall : ∀ c ∈ v, c = '='
  · have hdrop : v.dropWhile (fun c => decide (c ∈ ['='])) = [] := by
      rw [List.dropWhile_eq_nil_iff]
      intro c hc
      simp [hall c hc]
    rw [if_pos hall]
    simp only [strtok_r, hdrop]
  · have hdrop : v.dropWhile (fun c => decide (c ∈ ['=']))
        = v.dropWhile (fun c => decide (c = '=')) := by
      congr 1
      funext c
      simp
    have htake : ∀ l : CStr, l.takeWhile (fun c => decide (c ∉ ['=']))
        = l.takeWhile (fun c => decide (c ≠ '=')) := by
      intro l
      congr 1
      funext c
      simp
    have hnn : v.dropWhile (fun c => decide (c = '=')) ≠ [] := by
      intro h0
      rw [List.dropWhile_eq_nil_iff] at h0
      exact hall (fun c hc => by simpa using h0 c hc)
    obtain ⟨c, cs, hcs⟩ := List.exists_cons_of_ne_nil hnn
    rw [if_neg hall]
    simp only [strtok_r, hdrop, hcs, htake]
    simpa using attr_pairs_loop_done _ _ hlen

/-- C8 amended, at `k1=v1=x`: the pair returned is (k1, v1). -/
theorem parse_attr_list_single_witness :
    (("k1".toList ≠ [] ∧ ',' ∉ "k1".toList ∧ '=' ∉ "k1".toList)
      ∧ ("v1=x".toList ≠ [] ∧ ',' ∉ "v1=x".toList))
    ∧ parse_attr_list ("k1".toList ++ "=".toList ++ "v1=x".toList)
        = .returned (some [("k1".toList, "v1".toList)]) :=
  ⟨⟨by decide, by decide⟩,
    (parse_attr_list_single "k1".toList "v1=x".toList (by decide)
      (by decide)).trans (by decide)⟩

/-- C9, at the failing input `a=b,`: the naive split on `,` has an empty
second field, which holds no `=`, yet the parser returns the single pair
(a, b) instead of exiting. The non-empty fields `novalue` and `k=` do end in
`exit(1)`. -/
theorem parse_attr_list_drops_empty_field :
    List.splitOn ',' "a=b,".toList = ["a=b".toList, []]
    ∧ parse_attr_list "a=b,".toList
        = .returned (some [("a".toList, "b".toList)])
    ∧ parse_attr_list "novalue".toList = .exited 1 value_diagnostic
    ∧ parse_attr_list "k=".toList = .exited 1 value_diagnostic := by
  decide

/-- C10: the empty text parses to NULL (no entries), and for a non-empty
list of names that are non-empty and hold no `,`,
`parse_comma_separated_list` on `n1,n2,...,nk` returns, without error,
exactly those names in that order. -/
theorem parse_comma_separated_list_names :
    parse_comma_separated_list [] = .returned none
    ∧ ∀ names : List CStr, names ≠ [] → (∀ n ∈ names, n ≠ [] ∧ ',' ∉ n) →
        parse_comma_separated_list (List.intercalate ",".toList names)
          = .returned (some names) := by
  refine ⟨by decide, ?_⟩
  intro names hne h
  rw [comma_toList]
  have hnonempty := intercalate_ne_nil names hne (fun n hn => (h n hn).1)
  have hcount := count_intercalate names hne (fun n hn => (h n hn).2)
  have hfields : count_fields (List.intercalate [','] names) ','
      = names.length := by
    rw [count_fields_eq _ _ hnonempty]; omega
  have hlen : 0 < names.length := List.length_pos.mpr hne
  have hloop := comma_list_loop_names names h _ [] (Nat.lt_succ_self _)
  simp only [List.nil_append] at hloop
  simp only [parse_comma_separated_list, hfields, hloop]
  simp [hlen]

/-- C10, at the text `a,b,c`. -/
theorem parse_comma_separated_list_names_witness :
    (["a".toList, "b".toList, "c".toList] ≠ []
      ∧ ∀ n ∈ ["a".toList, "b".toList, "c".toList], n ≠ [] ∧ ',' ∉ n)
    ∧ parse_comma_separated_list "a,b,c".toList
        = .returned (some ["a".toList, "b".toList, "c".toList]) :=
  ⟨⟨by decide, by decide⟩,
    parse_comma_separated_list_names.2
      ["a".toList, "b".toList, "c".toList] (by decide) (by decide)⟩

/-! ## The tokenizer against the naive split -/

theorem tokens_nil (d : Char) : tokens d [] = [] := by
  simp [tokens]

theorem tokens_cons_delim (d : Char) (r : CStr) :
    tokens d (d :: r) = tokens d r := by
  simp [tokens, List.splitOn]

theorem strtok_r_cons_delim (d : Char) (r : CStr) :
    strtok_r (d :: r) [d] = strtok_r r [d] := by
  simp [strtok_r, List.dropWhile_cons]

theorem strtok_r_cons_ne (c d : Char) (r : CStr) (h : c ≠ d) :
    strtok_r (c :: r) [d]
      = some ((c :: r).takeWhile (fun x => decide (x ∉ [d])),
          ((c :: r).dropWhile (fun x => decide (x ∉ [d]))).drop 1) := by
  simp [strtok_r, List.dropWhile_cons, h]

theorem tokens_of_no_delim (d : Char) (tok : CStr) (hne : tok ≠ [])
    (hd : d ∉ tok) : tokens d tok = [tok] := by
  have : tok.splitOn d = [tok] := by
    apply List.splitOnP_eq_single
    intro x hx hp
    exact hd (by simpa using (beq_iff_eq.mp hp) ▸ hx)
  simp [tokens, this, hne]

theorem tokens_append_delim (d : Char) (tok rest : CStr) (hne : tok ≠ [])
    (hd : d ∉ tok) : tokens d (tok ++ d :: rest) = tok :: tokens d rest := by
  have : (tok ++ d :: rest).splitOn d = tok :: rest.splitOn d := by
    apply List.splitOnP_first
    · intro x hx hp
      exact hd (by simpa using (beq_iff_eq.mp hp) ▸ hx)
    · simp
  simp [tokens, this, hne]

/-- What a successful `strtok_r` call on a one-character delimiter returns:
the first non-empty field and the text after its delimiter. -/
theorem strtok_r_some (d : Char) (s tok rest : CStr)
    (h : strtok_r s [d] = some (tok, rest)) :
    tokens d s = tok :: tokens d rest ∧ rest.length < s.length
      ∧ tok ≠ [] ∧ d ∉ tok ∧ (∀ c ∈ tok, c ∈ s) ∧ (∀ c ∈ rest, c ∈ s) := by
  induction s with
  | nil => simp [strtok_r_nil] at h
  | cons c r ih =>
    by_cases hc : c = d
    · subst hc
      rw [strtok_r_cons_delim] at h
      obtain ⟨h1, h2, h3, h4, h5, h6⟩ := ih h
      refine ⟨by rw [tokens_cons_delim, h1], by simp; omega, h3, h4, ?_, ?_⟩
      · intro x hx; exact List.mem_cons_of_mem _ (h5 x hx)
      · intro x hx; exact List.mem_cons_of_mem _ (h6 x hx)
    · rw [strtok_r_cons_ne c d r hc] at h
      simp only [Option.some.injEq, Prod.mk.injEq] at h
      obtain ⟨htok, hrest⟩ := h
      have hsplit := List.takeWhile_append_dropWhile
        (fun x => decide (x ∉ [d])) (c :: r)
      rw [htok] at hsplit
      have htokne : tok ≠ [] := by
        rw [← htok]; simp [List.takeWhile_cons, hc]
      have hdtok : d ∉ tok := by
        intro hmem
        rw [← htok] at hmem
        have := List.mem_takeWhile_imp hmem
        simp at this
      have hsub : ∀ x ∈ tok, x ∈ c :: r := by
        intro x hx
        rw [← hsplit]; exact List.mem_append_left _ hx
      cases hdw : (c :: r).dropWhile (fun x => decide (x ∉ [d])) with
      | nil =>
        rw [hdw] at hsplit hrest
        simp only [List.append_nil] at hsplit
        simp only [List.drop_nil] at hrest
        subst hrest
        rw [← hsplit]
        refine ⟨?_, ?_, htokne, hdtok, fun x hx => hx, by simp⟩
        · rw [tokens_of_no_delim d tok htokne hdtok, tokens_nil]
        · simpa using List.length_pos.mpr htokne
      | cons x dw =>
        rw [hdw] at hsplit hrest
        simp only [List.drop_succ_cons, List.drop_zero] at hrest
        subst hrest
        have hx : x = d := by
          have := List.head_dropWhile_not (fun x => decide (x ∉ [d])) (c :: r)
            (by rw [hdw]; simp)
          simp only [hdw, List.head_cons] at this
          simpa using this
        subst hx
        rw [← hsplit]
        refine ⟨tokens_append_delim x tok dw htokne hdtok, by simp; omega,
          htokne, hdtok, ?_, ?_⟩
        · intro y hy; exact List.mem_append_left _ hy
        · intro y hy
          exact List.mem_append_right _ (List.mem_cons_of_mem _ hy)

/-- A `strtok_r` call on a one-character delimiter returns NULL exactly when
the text holds no non-empty field. -/
theorem strtok_r_none (d : Char) (s : CStr) (h : strtok_r s [d] = none) :
    tokens d s = [] := by
  induction s with
  | nil => exact tokens_nil d
  | cons c r ih =>
    by_cases hc : c = d
    · subst hc
      rw [strtok_r_cons_delim] at h
      rw [tokens_cons_delim, ih h]
    · rw [strtok_r_cons_ne c d r hc] at h
      simp at h

/-! ## The parser loops on every input -/

theorem comma_list_loop_tokens :
    ∀ (fuel : Nat) (s : CStr) (acc : List CStr), s.length < fuel →
      comma_list_loop fuel s acc = some (acc ++ tokens ',' s) := by
  intro fuel
  induction fuel with
  | zero => intro s acc h; omega
  | succ f ih =>
    intro s acc h
    simp only [comma_list_loop, comma_toList]
    cases hs : strtok_r s [','] with
    | none => simp [strtok_r_none ',' s hs]
    | some tr =>
      obtain ⟨tok, rest⟩ := tr
      obtain ⟨h1, h2, -⟩ := strtok_r_some ',' s tok rest hs
      simp only [ih rest (acc ++ [tok]) (by omega), h1]
      simp

theorem attr_pairs_loop_step (fuel : Nat) (s token saveptr1 : CStr)
    (acc : List (CStr × CStr))
    (h : strtok_r s [','] = some (token, saveptr1)) :
    attr_pairs_loop (fuel + 1) s acc
      = if 2 ≤ (tokens '=' token).length then
          attr_pairs_loop fuel saveptr1 (acc ++ [pair_of_field token])
        else if (tokens '=' token).length = 0 then .exited 1 key_diagnostic
        else .exited 1 value_diagnostic := by
  simp only [attr_pairs_loop, comma_toList, equals_toList, h]
  cases hk : strtok_r token ['='] with
  | none => simp [strtok_r_none '=' token hk]
  | some kr =>
    obtain ⟨key, saveptr2⟩ := kr
    obtain ⟨hk1, -⟩ := strtok_r_some '=' token key saveptr2 hk
    cases hv : strtok_r saveptr2 ['='] with
    | none => simp [hk1, hv, strtok_r_none '=' saveptr2 hv]
    | some vr =>
      obtain ⟨value, r3⟩ := vr
      obtain ⟨hv1, -⟩ := strtok_r_some '=' saveptr2 value r3 hv
      simp [hk1, hv, hv1, pair_of_field]

theorem attr_pairs_loop_returns :
    ∀ (fuel : Nat) (s : CStr) (acc : List (CStr × CStr)), s.length < fuel →
      (∀ f ∈ tokens ',' s, 2 ≤ (tokens '=' f).length) →
      attr_pairs_loop fuel s acc
        = .returned (some (acc ++ (tokens ',' s).map pair_of_field)) := by
  intro fuel
  induction fuel with
  | zero => intro s acc h; omega
  | succ f ih =>
    intro s acc h hall
    cases hs : strtok_r s [','] with
    | none =>
      simp [attr_pairs_loop, comma_toList, hs, strtok_r_none ',' s hs]
    | some tr =>
      obtain ⟨tok, rest⟩ := tr
      obtain ⟨h1, h2, -⟩ := strtok_r_some ',' s tok rest hs
      rw [h1] at hall
      rw [attr_pairs_loop_step f s tok rest acc hs,
        if_pos (hall tok (by simp)),
        ih rest _ (by omega) (fun g hg => hall g (by simp [hg])), h1]
      simp

theorem attr_pairs_loop_exits :
    ∀ (fuel : Nat) (s : CStr) (acc : List (CStr × CStr)), s.length < fuel →
      (∃ f ∈ tokens ',' s, (tokens '=' f).length < 2) →
      ∃ d, attr_pairs_loop fuel s acc = .exited 1 d := by
  intro fuel
  induction fuel with
  | zero => intro s acc h; omega
  | succ f ih =>
    intro s acc h hex
    cases hs : strtok_r s [','] with
    | none =>
      rw [strtok_r_none ',' s hs] at hex
      simp at hex
    | some tr =>
      obtain ⟨tok, rest⟩ := tr
      obtain ⟨h1, h2, -⟩ := strtok_r_some ',' s tok rest hs
      rw [h1] at hex
      rw [attr_pairs_loop_step f s tok rest acc hs]
      by_cases htok : 2 ≤ (tokens '=' tok).length
      · rw [if_pos htok]
        obtain ⟨g, hg, hlt⟩ := hex
        rcases List.mem_cons.mp hg with rfl | hg
        · omega
        · exact ih rest _ (by omega) ⟨g, hg, hlt⟩
      · rw [if_neg htok]
        split
        · exact ⟨_, rfl⟩
        · exact ⟨_, rfl⟩

theorem length_splitOn (d : Char) (s : CStr) :
    (s.splitOn d).length = s.count d + 1 := by
  induction s with
  | nil => simp
  | cons c r ih =>
    simp only [List.splitOn] at ih ⊢
    rw [List.splitOnP_cons]
    by_cases h : c = d
    · subst h
      simp [ih]
    · have hb : (c == d) = false := by simpa using h
      simp [hb, ih, List.count_cons]

theorem count_fields_eq_length_splitOn (s : CStr) (h : s ≠ []) :
    count_fields s ',' = (s.splitOn ',').length := by
  rw [count_fields_eq s ',' h, length_splitOn]; omega

theorem tokens_length_le (s : CStr) (h : s ≠ []) :
    (tokens ',' s).length ≤ count_fields s ',' := by
  rw [count_fields_eq_length_splitOn s h]
  exact List.length_filter_le _ _

theorem tokens_length_eq_iff (s : CStr) (h : s ≠ []) :
    (tokens ',' s).length = count_fields s ',' ↔ [] ∉ s.splitOn ',' := by
  rw [count_fields_eq_length_splitOn s h, tokens,
    List.filter_length_eq_length]
  constructor
  · intro hall hmem
    simpa using hall [] hmem
  · intro hno f hf
    have : f ≠ [] := fun h0 => hno (h0 ▸ hf)
    simpa using this

theorem tokens_eq_splitOn (s : CStr) (h : [] ∉ s.splitOn ',') :
    tokens ',' s = s.splitOn ',' := by
  rw [tokens, List.filter_eq_self]
  intro f hf
  have : f ≠ [] := fun h0 => h (h0 ▸ hf)
  simpa using this

/-- The C function `parse_comma_separated_list` on every input. -/
theorem parse_comma_separated_list_eq (arg : CStr) :
    parse_comma_separated_list arg
      = if arg = [] then .returned none
        else if [] ∈ arg.splitOn ',' then .exited 1 list_diagnostic
        else .returned (some (arg.splitOn ',')) := by
  by_cases h : arg = []
  · subst h; rfl
  · have hpos := count_fields_pos arg ',' h
    have hloop := comma_list_loop_tokens (arg.length + 1) arg []
      (Nat.lt_succ_self _)
    simp only [List.nil_append] at hloop
    simp only [parse_comma_separated_list, hpos, if_true, hloop, if_neg h]
    by_cases hmem : [] ∈ arg.splitOn ','
    · have : ¬ (tokens ',' arg).length = count_fields arg ',' :=
        fun heq => (tokens_length_eq_iff arg h).mp heq hmem
      rw [if_neg this, if_pos hmem]
    · have : (tokens ',' arg).length = count_fields arg ',' :=
        (tokens_length_eq_iff arg h).mpr hmem
      rw [if_pos this, if_neg hmem, tokens_eq_splitOn arg hmem]

/-! ## Empty fields of the naive split -/

theorem splitOn_cons_delim (d : Char) (r : CStr) :
    (d :: r).splitOn d = [] :: r.splitOn d := by
  simp [List.splitOn]

theorem splitOn_cons_ne (c d : Char) (r : CStr) (h : c ≠ d) :
    (c :: r).splitOn d = (r.splitOn d).modifyHead (List.cons c) := by
  have hb : (c == d) = false := by simpa using h
  simp [List.splitOn, hb]

theorem nil_mem_splitOn_iff_tail (s : CStr) :
    [] ∈ s.splitOn ',' ↔
      s = [] ∨ s.head? = some ',' ∨ [] ∈ (s.splitOn ',').tail := by
  cases s with
  | nil => simp
  | cons c r =>
    by_cases hc : c = ','
    · subst hc
      simp [splitOn_cons_delim]
    · rw [splitOn_cons_ne c ',' r hc]
      cases hL : r.splitOn ',' with
      | nil => exact absurd hL (List.splitOnP_ne_nil _ _)
      | cons h t => simp [hc]

theorem nil_mem_tail_splitOn_iff (s : CStr) :
    [] ∈ (s.splitOn ',').tail ↔
      s.getLast? = some ',' ∨ [',', ','] <:+: s := by
  induction s with
  | nil => simp
  | cons c r ih =>
    by_cases hc : c = ','
    · subst hc
      rw [splitOn_cons_delim, List.tail_cons, nil_mem_splitOn_iff_tail, ih,
        List.infix_cons_iff, List.cons_prefix_cons]
      cases r with
      | nil => simp
      | cons x r' =>
        simp only [List.getLast?_cons_cons, List.head?_cons,
          Option.some.injEq, List.cons_prefix_cons, List.nil_prefix, and_true,
          true_and]
        constructor
        · rintro (h | h | h | h)
          · exact absurd h (by simp)
          · exact Or.inr (Or.inl h.symm)
          · exact Or.inl h
          · exact Or.inr (Or.inr h)
        · rintro (h | h | h)
          · exact Or.inr (Or.inr (Or.inl h))
          · exact Or.inr (Or.inl h.symm)
          · exact Or.inr (Or.inr (Or.inr h))
    · rw [splitOn_cons_ne c ',' r hc, List.tail_modifyHead, ih,
        List.infix_cons_iff, List.cons_prefix_cons]
      have hc2 : ¬ (',' = c) := fun h => hc h.symm
      cases r with
      | nil => simp [hc]
      | cons x r' => simp [hc2]

/-- A text has an empty field in its naive split on `,` exactly when it is
empty, starts with a comma, ends with a comma or holds two adjacent
commas. -/
theorem nil_mem_splitOn_iff (s : CStr) :
    [] ∈ s.splitOn ',' ↔
      s = [] ∨ s.head? = some ',' ∨ s.getLast? = some ','
        ∨ [',', ','] <:+: s := by
  rw [nil_mem_splitOn_iff_tail, nil_mem_tail_splitOn_iff]

theorem not_mem_of_mem_splitOn (d : Char) (s : CStr) :
    ∀ f ∈ s.splitOn d, d ∉ f := by
  induction s with
  | nil => simp
  | cons c r ih =>
    by_cases hc : c = d
    · subst hc
      rw [splitOn_cons_delim]
      intro f hf
      rcases List.mem_cons.mp hf with rfl | hf
      · simp
      · exact ih f hf
    · rw [splitOn_cons_ne c d r hc]
      cases hL : r.splitOn d with
      | nil => simp
      | cons h t =>
        rw [hL] at ih
        intro f hf
        simp only [List.modifyHead_cons, List.mem_cons] at hf
        rcases hf with rfl | hf
        · have := ih h (by simp)
          simp only [List.mem_cons, not_or]
          exact ⟨fun h2 => hc h2.symm, this⟩
        · exact ih f (by simp [hf])

/-! ## The name-list parser on every input (C11, C18) -/

/-- C11, refuted: on `a,,c` the naive split has an empty middle field and
the parser does not keep it as an entry; it ends the process with
`exit(1)`. -/
theorem parse_comma_separated_list_exits_on_empty_field :
    List.splitOn ',' "a,,c".toList = ["a".toList, [], "c".toList]
    ∧ parse_comma_separated_list "a,,c".toList = .exited 1 list_diagnostic := by
  decide

/-- C11, amended: `parse_comma_separated_list` returns NULL on the empty
text, ends the process with `exit(1)` on a non-empty text whose naive split
on `,` has an empty field, and on every other text returns exactly the naive
split, which has one entry more than the text has commas. -/
theorem parse_comma_separated_list_total (arg : CStr) :
    parse_comma_separated_list arg
        = (if arg = [] then .returned none
          else if [] ∈ arg.splitOn ',' then .exited 1 list_diagnostic
          else .returned (some (arg.splitOn ',')))
      ∧ (arg.splitOn ',').length = arg.count ',' + 1 :=
  ⟨parse_comma_separated_list_eq arg, length_splitOn ',' arg⟩

/-- C18: `parse_comma_separated_list` returns (no fatal exit) exactly when
the text is empty or has no leading comma, no trailing comma and no two
adjacent commas, that is when it is empty or a comma-joined list of non-empty
comma-free names; the tokenizer loop yields `count_fields` tokens exactly
when no field of the naive split is empty; and a non-NULL result has at
least one entry and only non-empty entries. -/
theorem parse_comma_separated_list_returns_iff (arg : CStr) :
    ((∃ r, parse_comma_separated_list arg = .returned r) ↔
        arg = [] ∨ (arg.head? ≠ some ',' ∧ arg.getLast? ≠ some ','
          ∧ ¬ ",,".toList <:+: arg))
    ∧ ((∃ r, parse_comma_separated_list arg = .returned r) ↔
        arg = [] ∨ ∃ names : List CStr, names ≠ []
          ∧ (∀ n ∈ names, n ≠ [] ∧ ',' ∉ n)
          ∧ arg = List.intercalate ",".toList names)
    ∧ (arg ≠ [] → ∃ toks, comma_list_loop (arg.length + 1) arg [] = some toks
        ∧ (toks.length = count_fields arg ',' ↔ [] ∉ arg.splitOn ','))
    ∧ (∀ result, parse_comma_separated_list arg = .returned (some result) →
        result ≠ [] ∧ ∀ n ∈ result, n ≠ []) := by
  have heq := parse_comma_separated_list_eq arg
  have hret : (∃ r, parse_comma_separated_list arg = .returned r) ↔
      arg = [] ∨ [] ∉ arg.splitOn ',' := by
    rw [heq]
    by_cases h : arg = []
    · simp [h]
    · by_cases hmem : [] ∈ arg.splitOn ',' <;> simp [h, hmem]
  refine ⟨?_, ?_, ?_, ?_⟩
  · rw [hret, nil_mem_splitOn_iff]
    have : ",,".toList = [',', ','] := rfl
    rw [this]
    by_cases h : arg = []
    · simp [h]
    · simp only [h, false_or, not_or]
  · rw [hret]
    constructor
    · rintro (h | h)
      · exact Or.inl h
      · by_cases h0 : arg = []
        · exact Or.inl h0
        · refine Or.inr ⟨arg.splitOn ',', List.splitOnP_ne_nil _ _, ?_, ?_⟩
          · intro n hn
            exact ⟨fun hn0 => h (hn0 ▸ hn), not_mem_of_mem_splitOn ',' arg n hn⟩
          · rw [comma_toList]
            exact (List.intercalate_splitOn arg ',').symm
    · rintro (h | ⟨names, hne, hall, harg⟩)
      · exact Or.inl h
      · right
        rw [harg, comma_toList,
          List.splitOn_intercalate names ',' (fun l hl => (hall l hl).2) hne]
        exact fun hmem => (hall [] hmem).1 rfl
  · intro h
    refine ⟨_, comma_list_loop_tokens (arg.length + 1) arg []
      (Nat.lt_succ_self _), ?_⟩
    simpa using tokens_length_eq_iff arg h
  · intro result hres
    rw [heq] at hres
    by_cases h : arg = []
    · simp [h] at hres
    · by_cases hmem : [] ∈ arg.splitOn ','
      · simp [h, hmem] at hres
      · simp only [h, hmem, if_false, Parsed.returned.injEq,
          Option.some.injEq] at hres
        subst hres
        exact ⟨List.splitOnP_ne_nil _ _, fun n hn hn0 => hmem (hn0 ▸ hn)⟩

/-- C18, at `a,b,c` (which returns) and at `a,,c` (which does not). -/
theorem parse_comma_separated_list_returns_iff_witness :
    ("a,b,c".toList = [] ∨ ("a,b,c".toList.head? ≠ some ','
        ∧ "a,b,c".toList.getLast? ≠ some ','
        ∧ ¬ ",,".toList <:+: "a,b,c".toList))
    ∧ (∃ r, parse_comma_separated_list "a,b,c".toList = .returned r)
    ∧ ¬ (∃ r, parse_comma_separated_list "a,,c".toList = .returned r) := by
  have hinfix : ¬ ",,".toList <:+: "a,b,c".toList := by decide
  have hcond : "a,b,c".toList = [] ∨ ("a,b,c".toList.head? ≠ some ','
      ∧ "a,b,c".toList.getLast? ≠ some ','
      ∧ ¬ ",,".toList <:+: "a,b,c".toList) :=
    Or.inr ⟨by decide, by decide, hinfix⟩
  refine ⟨hcond,
    (parse_comma_separated_list_returns_iff "a,b,c".toList).1.mpr hcond, ?_⟩
  intro h
  rcases (parse_comma_separated_list_returns_iff "a,,c".toList).1.mp h
    with h0 | ⟨-, -, h3⟩
  · exact absurd h0 (by decide)
  · exact h3 (by decide)

/-! ## The pair-list parser on every input (C12, C13, C19) -/

theorem mem_tokens_iff (d : Char) (s f : CStr) :
    f ∈ tokens d s ↔ f ∈ s.splitOn d ∧ f ≠ [] := by
  simp [tokens]

theorem subset_of_mem_splitOn (d : Char) (s : CStr) :
    ∀ f ∈ s.splitOn d, ∀ c ∈ f, c ∈ s := by
  induction s with
  | nil => simp
  | cons x r ih =>
    by_cases hx : x = d
    · subst hx
      rw [splitOn_cons_delim]
      intro f hf c hc
      rcases List.mem_cons.mp hf with rfl | hf
      · simp at hc
      · exact List.mem_cons_of_mem _ (ih f hf c hc)
    · rw [splitOn_cons_ne x d r hx]
      cases hL : r.splitOn d with
      | nil => simp
      | cons h t =>
        rw [hL] at ih
        intro f hf c hc
        simp only [List.modifyHead_cons, List.mem_cons] at hf
        rcases hf with rfl | hf
        · rcases List.mem_cons.mp hc with rfl | hc
          · simp
          · exact List.mem_cons_of_mem _ (ih h (by simp) c hc)
        · exact List.mem_cons_of_mem _ (ih f (by simp [hf]) c hc)

theorem parse_attr_list_of_all (arg : CStr)
    (h : ∀ f ∈ tokens ',' arg, 2 ≤ (tokens '=' f).length) :
    parse_attr_list arg
      = .returned
          (if arg = [] then none
            else some ((tokens ',' arg).map pair_of_field)) := by
  by_cases h0 : arg = []
  · subst h0; rfl
  · have hpos := count_fields_pos arg ',' h0
    simp only [parse_attr_list, hpos, if_true, if_neg h0]
    simpa using attr_pairs_loop_returns (arg.length + 1) arg []
      (Nat.lt_succ_self _) h

theorem parse_attr_list_of_exists (arg : CStr)
    (h : ∃ f ∈ tokens ',' arg, (tokens '=' f).length < 2) :
    ∃ d, parse_attr_list arg = .exited 1 d := by
  have h0 : arg ≠ [] := by
    rintro rfl
    simp [tokens_nil] at h
  have hpos := count_fields_pos arg ',' h0
  simp only [parse_attr_list, hpos, if_true]
  exact attr_pairs_loop_exits (arg.length + 1) arg [] (Nat.lt_succ_self _) h

theorem pair_of_field_spec (f : CStr) (hf : ',' ∉ f)
    (h : 2 ≤ (tokens '=' f).length) :
    ((pair_of_field f).1 ≠ [] ∧ ',' ∉ (pair_of_field f).1
        ∧ '=' ∉ (pair_of_field f).1)
      ∧ ((pair_of_field f).2 ≠ [] ∧ ',' ∉ (pair_of_field f).2
        ∧ '=' ∉ (pair_of_field f).2) := by
  have hseg : ∀ g ∈ tokens '=' f, g ≠ [] ∧ ',' ∉ g ∧ '=' ∉ g := by
    intro g hg
    obtain ⟨hg1, hg2⟩ := (mem_tokens_iff '=' f g).mp hg
    exact ⟨hg2, fun hc => hf (subset_of_mem_splitOn '=' f g hg1 ',' hc),
      not_mem_of_mem_splitOn '=' f g hg1⟩
  cases hT : tokens '=' f with
  | nil => rw [hT] at h; simp at h
  | cons k t =>
    cases t with
    | nil => rw [hT] at h; simp at h
    | cons v t' =>
      rw [hT] at hseg
      simp only [pair_of_field, hT, List.getD_cons_zero, List.getD_cons_succ]
      exact ⟨hseg k (by simp), hseg v (by simp)⟩

/-- C12, at the failing input `,`: `count_fields` is 2, so the array is
allocated, no token is found, and the parser returns a present constraint
with zero pairs. -/
theorem parse_attr_list_returns_empty_array :
    count_fields ",".toList ',' = 2
    ∧ parse_attr_list ",".toList = .returned (some []) := by
  decide

/-- C13: every pair `parse_attr_list` returns has a non-empty key and a
non-empty value, and neither holds a `,` or an `=`. -/
theorem parse_attr_list_pairs_clean (arg : CStr)
    (result : List (CStr × CStr))
    (h : parse_attr_list arg = .returned (some result)) :
    ∀ p ∈ result, (p.1 ≠ [] ∧ ',' ∉ p.1 ∧ '=' ∉ p.1)
      ∧ (p.2 ≠ [] ∧ ',' ∉ p.2 ∧ '=' ∉ p.2) := by
  by_cases hall : ∀ f ∈ tokens ',' arg, 2 ≤ (tokens '=' f).length
  · rw [parse_attr_list_of_all arg hall] at h
    by_cases h0 : arg = []
    · simp [h0] at h
    · simp only [if_neg h0, Parsed.returned.injEq, Option.some.injEq] at h
      subst h
      intro p hp
      obtain ⟨f, hf, rfl⟩ := List.mem_map.mp hp
      have hfs := ((mem_tokens_iff ',' arg f).mp hf).1
      exact pair_of_field_spec f (not_mem_of_mem_splitOn ',' arg f hfs)
        (hall f hf)
  · have hex : ∃ f ∈ tokens ',' arg, (tokens '=' f).length < 2 := by
      by_contra hcon
      apply hall
      intro f hf
      by_contra hlt
      exact hcon ⟨f, hf, by omega⟩
    obtain ⟨d, hd⟩ := parse_attr_list_of_exists arg hex
    rw [hd] at h
    exact absurd h (by simp)

/-- C13, at the text `=k=v,a=b=c`, whose pairs are (k, v) and (a, b). -/
theorem parse_attr_list_pairs_clean_witness :
    parse_attr_list "=k=v,a=b=c".toList
        = .returned
            (some [("k".toList, "v".toList), ("a".toList, "b".toList)])
    ∧ ∀ p ∈ [("k".toList, "v".toList), ("a".toList, "b".toList)],
        (p.1 ≠ [] ∧ ',' ∉ p.1 ∧ '=' ∉ p.1)
          ∧ (p.2 ≠ [] ∧ ',' ∉ p.2 ∧ '=' ∉ p.2) :=
  ⟨by decide,
    parse_attr_list_pairs_clean "=k=v,a=b=c".toList
      [("k".toList, "v".toList), ("a".toList, "b".toList)] (by decide)⟩

/-- C19: `parse_attr_list` returns exactly when every non-empty field of the
naive split on `,` has at least two non-empty segments in its split on `=`;
it then returns NULL for the empty text and otherwise, for the non-empty
fields in order, the pair of the first and the second such segment; in every
other case it ends the process with `exit(1)`. -/
theorem parse_attr_list_returns_iff (arg : CStr) :
    ((∃ r, parse_attr_list arg = .returned r) ↔
        ∀ f ∈ arg.splitOn ',', f ≠ [] → 2 ≤ (tokens '=' f).length)
    ∧ (∀ r, parse_attr_list arg = .returned r →
        r = if arg = [] then none
          else some ((tokens ',' arg).map pair_of_field))
    ∧ ((¬ ∃ r, parse_attr_list arg = .returned r) →
        ∃ d, parse_attr_list arg = .exited 1 d) := by
  have hiff : (∀ f ∈ arg.splitOn ',', f ≠ [] → 2 ≤ (tokens '=' f).length)
      ↔ ∀ f ∈ tokens ',' arg, 2 ≤ (tokens '=' f).length := by
    constructor
    · intro h f hf
      obtain ⟨h1, h2⟩ := (mem_tokens_iff ',' arg f).mp hf
      exact h f h1 h2
    · intro h f h1 h2
      exact h f ((mem_tokens_iff ',' arg f).mpr ⟨h1, h2⟩)
  rw [hiff]
  by_cases hall : ∀ f ∈ tokens ',' arg, 2 ≤ (tokens '=' f).length
  · have hp := parse_attr_list_of_all arg hall
    refine ⟨⟨fun _ => hall, fun _ => ⟨_, hp⟩⟩, ?_, ?_⟩
    · intro r hr
      rw [hp] at hr
      simpa using hr.symm
    · intro hno
      exact absurd ⟨_, hp⟩ hno
  · have hex : ∃ f ∈ tokens ',' arg, (tokens '=' f).length < 2 := by
      by_contra hcon
      apply hall
      intro f hf
      by_contra hlt
      exact hcon ⟨f, hf, by omega⟩
    obtain ⟨d, hd⟩ := parse_attr_list_of_exists arg hex
    refine ⟨⟨?_, fun h => absurd h hall⟩, ?_, fun _ => ⟨d, hd⟩⟩
    · rintro ⟨r, hr⟩
      rw [hd] at hr
      exact absurd hr (by simp)
    · intro r hr
      rw [hd] at hr
      exact absurd hr (by simp)

/-- C19, at `a=b,,c=d`, `a=b,` and `=k=v`. -/
theorem parse_attr_list_returns_iff_witness :
    (∀ f ∈ "a=b,,c=d".toList.splitOn ',', f ≠ [] →
        2 ≤ (tokens '=' f).length)
    ∧ (∃ r, parse_attr_list "a=b,,c=d".toList = .returned r)
    ∧ parse_attr_list "a=b,,c=d".toList
        = .returned
            (some [("a".toList, "b".toList), ("c".toList, "d".toList)])
    ∧ parse_attr_list "a=b,".toList
        = .returned (some [("a".toList, "b".toList)])
    ∧ parse_attr_list "=k=v".toList
        = .returned (some [("k".toList, "v".toList)]) := by
  have hcond : ∀ f ∈ "a=b,,c=d".toList.splitOn ',', f ≠ [] →
      2 ≤ (tokens '=' f).length := by decide
  exact ⟨hcond,
    (parse_attr_list_returns_iff "a=b,,c=d".toList).1.mpr hcond,
    by decide, by decide, by decide⟩

/-! ## Array writes of the parsers (C20) -/

theorem comma_list_writes_eq :
    ∀ (fuel : Nat) (s : CStr) (field : Nat), s.length < fuel →
      comma_list_writes fuel s field
        = List.range' field (tokens ',' s).length := by
  intro fuel
  induction fuel with
  | zero => intro s field h; omega
  | succ f ih =>
    intro s field h
    simp only [comma_list_writes, comma_toList]
    cases hs : strtok_r s [','] with
    | none => simp [strtok_r_none ',' s hs]
    | some tr =>
      obtain ⟨tok, rest⟩ := tr
      obtain ⟨h1, h2, -⟩ := strtok_r_some ',' s tok rest hs
      simp only [ih rest (field + 1) (by omega), h1, List.length_cons,
        List.range'_succ]

theorem attr_pairs_writes_bound :
    ∀ (fuel : Nat) (s : CStr) (field : Nat), s.length < fuel →
      ∀ i ∈ attr_pairs_writes fuel s field,
        i < 2 * (field + (tokens ',' s).length) := by
  intro fuel
  induction fuel with
  | zero => intro s field h; omega
  | succ f ih =>
    intro s field h i hi
    simp only [attr_pairs_writes, comma_toList, equals_toList] at hi
    cases hs : strtok_r s [','] with
    | none => simp [hs] at hi
    | some tr =>
      obtain ⟨tok, rest⟩ := tr
      obtain ⟨h1, h2, -⟩ := strtok_r_some ',' s tok rest hs
      rw [h1, List.length_cons]
      simp only [hs] at hi
      cases hk : strtok_r tok ['='] with
      | none =>
        simp only [hk, List.mem_singleton] at hi
        omega
      | some kr =>
        obtain ⟨key, saveptr2⟩ := kr
        simp only [hk] at hi
        cases hv : strtok_r saveptr2 ['='] with
        | none =>
          simp only [hv, List.mem_cons, List.mem_singleton, List.mem_nil_iff,
            or_false] at hi
          omega
        | some vr =>
          simp only [hv, List.mem_cons] at hi
          rcases hi with hi | hi | hi
          · omega
          · omega
          · have := ih rest (field + 1) (by omega) i hi
            omega

/-- C20: the number of non-empty fields never exceeds `count_fields`, every
index `parse_comma_separated_list` writes is at most `fields` (the array has
`fields + 1` slots), and every index `parse_attr_list` writes is below
`2 * num_fields` (the array has `2 * num_fields + 1` slots, so the last one
keeps the NULL that `calloc` put there). -/
theorem parser_writes_in_bounds (arg : CStr) :
    (tokens ',' arg).length ≤ count_fields arg ','
    ∧ (∀ i ∈ parse_comma_separated_list_writes arg,
        i < count_fields arg ',' + 1)
    ∧ (∀ i ∈ parse_attr_list_writes arg, i < 2 * count_fields arg ',')
    ∧ 2 * count_fields arg ',' ∉ parse_attr_list_writes arg := by
  by_cases h0 : arg = []
  · subst h0
    refine ⟨by decide, ?_, ?_, ?_⟩ <;> simp [parse_comma_separated_list_writes,
      parse_attr_list_writes, count_fields]
  · have hle := tokens_length_le arg h0
    have hpos := count_fields_pos arg ',' h0
    have hattr : ∀ i ∈ parse_attr_list_writes arg,
        i < 2 * count_fields arg ',' := by
      intro i hi
      simp only [parse_attr_list_writes, hpos, if_true] at hi
      have := attr_pairs_writes_bound (arg.length + 1) arg 0
        (Nat.lt_succ_self _) i hi
      omega
    refine ⟨hle, ?_, hattr, fun hmem => Nat.lt_irrefl _ (hattr _ hmem)⟩
    intro i hi
    simp only [parse_comma_separated_list_writes, hpos, if_true,
      comma_list_writes_eq (arg.length + 1) arg 0 (Nat.lt_succ_self _),
      List.length_range'] at hi
    split at hi
    · rcases List.mem_append.mp hi with hi | hi
      · have := (List.mem_range'_1.mp hi).2
        omega
      · simp only [List.mem_singleton] at hi
        omega
    · have := (List.mem_range'_1.mp hi).2
      omega

/-- C20, at `a=b,,c=d`: three fields are counted, two tokens are found, and
the writes go to the indices 0 to 3 of an array of 7 slots. -/
theorem parser_writes_in_bounds_witness :
    count_fields "a=b,,c=d".toList ',' = 3
    ∧ parse_attr_list_writes "a=b,,c=d".toList = [0, 1, 2, 3]
    ∧ ∀ i ∈ parse_attr_list_writes "a=b,,c=d".toList,
        i < 2 * count_fields "a=b,,c=d".toList ',' :=
  ⟨by decide, by decide, (parser_writes_in_bounds "a=b,,c=d".toList).2.2.1⟩

/-! ## The two formatters (C14, C16) and the short circuit (C17) -/

theorem to_string_of_known_type (a : lwes_event_attribute)
    (h : ∀ tag, a ≠ .UNDEFINED tag) :
    lwes_event_attribute_to_string a
      = (((lwes_event_attribute_to_stream a).length : Int),
          some (lwes_event_attribute_to_stream a)) := by
  cases a with
  | UNDEFINED tag => exact absurd rfl (h tag)
  | _ => rfl

/-- C14: for every attribute of the nine variants, the filter formatter
stores exactly the text the display formatter writes (and returns its
length). -/
theorem to_string_eq_to_stream (a : lwes_event_attribute)
    (h : ∀ tag, a ≠ .UNDEFINED tag) :
    lwes_event_attribute_to_string a
      = (((lwes_event_attribute_to_stream a).length : Int),
          some (lwes_event_attribute_to_stream a)) :=
  to_string_of_known_type a h

/-- C14, at the attribute Int16 -5, which both formatters render as
"-5". -/
theorem to_string_eq_to_stream_witness :
    (∀ tag, lwes_event_attribute.INT_16 (-5) ≠ .UNDEFINED tag)
    ∧ lwes_event_attribute_to_string (.INT_16 (-5)) = (2, some "-5".toList)
    ∧ lwes_event_attribute_to_stream (.INT_16 (-5)) = "-5".toList := by
  have hnine : ∀ tag, lwes_event_attribute.INT_16 (-5) ≠ .UNDEFINED tag := by
    intro tag h
    cases h
  have hshow : lwes_event_attribute_to_stream (.INT_16 (-5)) = "-5".toList := by
    decide
  refine ⟨hnine, ?_, hshow⟩
  rw [to_string_eq_to_stream (.INT_16 (-5)) hnine, hshow]
  rfl

/-- C16: a Boolean renders as "true" when its value is 1 (true) and as
"false" for every other value, 0 (false) included, in the display formatter
and in the filter formatter alike. -/
theorem boolean_rendering :
    lwes_event_attribute_to_stream (.BOOLEAN 1) = "true".toList
    ∧ lwes_event_attribute_to_stream (.BOOLEAN 0) = "false".toList
    ∧ (lwes_event_attribute_to_string (.BOOLEAN 1)).2 = some "true".toList
    ∧ (lwes_event_attribute_to_string (.BOOLEAN 0)).2 = some "false".toList
    ∧ ∀ v : Int,
        lwes_event_attribute_to_stream (.BOOLEAN v)
            = (if v = 1 then "true".toList else "false".toList)
          ∧ (lwes_event_attribute_to_string (.BOOLEAN v)).2
            = some (if v = 1 then "true".toList else "false".toList) := by
  refine ⟨by decide, by decide, by decide, by decide, fun v => ⟨rfl, rfl⟩⟩

theorem attr_list_loop_append_matched
    (attributes : List (CStr × lwes_event_attribute))
    (pre rest : List (CStr × CStr))
    (hpre : ∀ p ∈ pre, p.2 ≠ [] ∧ ∃ a, lwes_hash_get attributes p.1 = some a
      ∧ (lwes_event_attribute_to_string a).2 = some p.2) :
    attr_list_loop attributes (pre ++ rest) true
      = attr_list_loop attributes rest true := by
  induction pre with
  | nil => rfl
  | cons p tl ih =>
    obtain ⟨key, expected⟩ := p
    obtain ⟨hne, a, hget, hfmt⟩ := hpre (key, expected) (by simp)
    have hlen := to_string_result_eq_length a expected hfmt
    have hpos : ¬ (lwes_event_attribute_to_string a).1 ≤ 0 := by
      rw [hlen]
      have : 0 < expected.length := List.length_pos.mpr hne
      omega
    have ih2 := ih (fun q hq => hpre q (by simp [hq]))
    simp [attr_list_loop, hget, hfmt, hpos, ih2]

/-- C17: when the pairs before some pair all match (each key is set and
renders to its non-empty expected value) and that pair fails, because its key
is missing or renders to a different non-empty text, the call returns with
nothing written, whatever pairs follow: they are never looked up or
formatted. -/
theorem attr_check_short_circuits (event : lwes_event)
    (event_names : Option (List CStr)) (pre : List (CStr × CStr))
    (key expected : CStr)
    (hpre : ∀ p ∈ pre, p.2 ≠ []
      ∧ ∃ a, lwes_hash_get event.attributes p.1 = some a
        ∧ (lwes_event_attribute_to_string a).2 = some p.2)
    (hfail : lwes_hash_get event.attributes key = none
      ∨ ∃ a t, lwes_hash_get event.attributes key = some a
        ∧ (lwes_event_attribute_to_string a).2 = some t
        ∧ t ≠ [] ∧ t ≠ expected) :
    ∀ rest : List (CStr × CStr),
      lwes_event_to_stream event event_names
          (some (pre ++ (key, expected) :: rest))
        = .returned [] := by
  intro rest
  have hloop : attr_list_loop event.attributes
        (pre ++ (key, expected) :: rest) true = .return0
      ∨ attr_list_loop event.attributes
        (pre ++ (key, expected) :: rest) true = .finished false := by
    rw [attr_list_loop_append_matched event.attributes pre _ hpre]
    rcases hfail with hnone | ⟨a, t, hget, hfmt, ht, hdiff⟩
    · left; simp [attr_list_loop, hnone]
    · right
      exact attr_list_loop_mismatch event.attributes key expected t rest a
        hget hfmt ht hdiff
  have hnone : lwes_event_to_stream event none
      (some (pre ++ (key, expected) :: rest)) = .returned [] := by
    rcases hloop with h | h <;> simp [lwes_event_to_stream, h]
  cases event_names with
  | none => exact hnone
  | some names =>
    by_cases hmem : event.eventName ∈ names
    · rw [to_stream_of_name_mem event names _ hmem]; exact hnone
    · exact to_stream_of_name_not_mem event names _ hmem

/-- C17, at an event with a = "x" and c = "" and the constraint a=x,b=y,c=z:
the pair for the missing key b ends the check with nothing written, although
the later pair for c, checked alone, ends the process. -/
theorem attr_check_short_circuits_witness :
    lwes_hash_get
        [("a".toList, lwes_event_attribute.STRING "x".toList),
          ("c".toList, lwes_event_attribute.STRING [])] "b".toList = none
    ∧ lwes_event_to_stream
        ⟨"Login".toList, 2,
          [("a".toList, .STRING "x".toList), ("c".toList, .STRING [])]⟩
        none
        (some ([("a".toList, "x".toList)]
          ++ ("b".toList, "y".toList) :: [("c".toList, "z".toList)]))
      = .returned []
    ∧ lwes_event_to_stream
        ⟨"Login".toList, 2,
          [("a".toList, .STRING "x".toList), ("c".toList, .STRING [])]⟩
        none (some [("c".toList, "z".toList)])
      = .exited 1 (format_diagnostic 0) := by
  have hpre : ∀ p ∈ [("a".toList, "x".toList)], p.2 ≠ []
      ∧ ∃ a, lwes_hash_get
          (lwes_event.mk "Login".toList 2
            [("a".toList, .STRING "x".toList),
              ("c".toList, .STRING [])]).attributes p.1 = some a
        ∧ (lwes_event_attribute_to_string a).2 = some p.2 := by
    intro p hp
    simp only [List.mem_singleton] at hp
    subst hp
    exact ⟨by decide, .STRING "x".toList, by decide, by decide⟩
  have hb : lwes_hash_get
      [("a".toList, lwes_event_attribute.STRING "x".toList),
        ("c".toList, lwes_event_attribute.STRING [])] "b".toList = none := by
    decide
  exact ⟨hb,
    attr_check_short_circuits
      ⟨"Login".toList, 2,
        [("a".toList, .STRING "x".toList), ("c".toList, .STRING [])]⟩
      none [("a".toList, "x".toList)] "b".toList "y".toList hpre (Or.inl hb)
      [("c".toList, "z".toList)],
    by decide⟩

/-! ## Decimal rendering of the integer variants (C15) -/

theorem toDigitsCore_eq :
    ∀ (fuel n : Nat) (ds : List Char), n < fuel →
      Nat.toDigitsCore 10 fuel n ds = Nat.toDigits 10 n ++ ds := by
  intro fuel
  induction fuel using Nat.strong_induction_on with
  | _ fuel ih =>
    intro n ds hn
    cases fuel with
    | zero => omega
    | succ f =>
      by_cases h0 : n / 10 = 0
      · simp [Nat.toDigits, Nat.toDigitsCore, h0]
      · have hlt : n / 10 < n := Nat.div_lt_self (by omega) (by omega)
        have h1 : Nat.toDigits 10 n
            = Nat.toDigits 10 (n / 10) ++ [Nat.digitChar (n % 10)] := by
          have : Nat.toDigits 10 n
              = Nat.toDigitsCore 10 n (n / 10) [Nat.digitChar (n % 10)] := by
            simp [Nat.toDigits, Nat.toDigitsCore, h0]
          rw [this, ih n (by omega) (n / 10) _ hlt]
        have h2 : Nat.toDigitsCore 10 (f + 1) n ds
            = Nat.toDigitsCore 10 f (n / 10) (Nat.digitChar (n % 10) :: ds) := by
          simp [Nat.toDigitsCore, h0]
        rw [h2, ih f (by omega) (n / 10) _ (by omega), h1]
        simp

theorem toDigits_of_lt (n : Nat) (h : n < 10) :
    Nat.toDigits 10 n = [Nat.digitChar n] := by
  have h0 : n / 10 = 0 := by omega
  have h1 : n % 10 = n := by omega
  simp [Nat.toDigits, Nat.toDigitsCore, h0, h1]

theorem toDigits_of_ge (n : Nat) (h : 10 ≤ n) :
    Nat.toDigits 10 n
      = Nat.toDigits 10 (n / 10) ++ [Nat.digitChar (n % 10)] := by
  have h0 : ¬ n / 10 = 0 := by omega
  have hlt : n / 10 < n := Nat.div_lt_self (by omega) (by omega)
  have : Nat.toDigits 10 n
      = Nat.toDigitsCore 10 n (n / 10) [Nat.digitChar (n % 10)] := by
    simp [Nat.toDigits, Nat.toDigitsCore, h0]
  rw [this, toDigitsCore_eq n (n / 10) _ hlt]

theorem digitChar_isDigit (d : Nat) (h : d < 10) :
    (Nat.digitChar d).isDigit = true := by
  interval_cases d <;> decide

theorem digitChar_value (d : Nat) (h : d < 10) :
    (Nat.digitChar d).toNat - '0'.toNat = d := by
  interval_cases d <;> decide

theorem digitChar_ne_zero (d : Nat) (h : d < 10) (h0 : d ≠ 0) :
    Nat.digitChar d ≠ '0' := by
  interval_cases d <;> first | exact absurd rfl h0 | decide

theorem toDigits_ne_nil (n : Nat) : Nat.toDigits 10 n ≠ [] := by
  by_cases h : n < 10
  · simp [toDigits_of_lt n h]
  · simp [toDigits_of_ge n (by omega)]

theorem toDigits_isDigit (n : Nat) : ∀ c ∈ Nat.toDigits 10 n, c.isDigit = true := by
  induction n using Nat.strong_induction_on with
  | _ n ih =>
    by_cases h : n < 10
    · rw [toDigits_of_lt n h]
      intro c hc
      simp only [List.mem_singleton] at hc
      subst hc
      exact digitChar_isDigit n h
    · rw [toDigits_of_ge n (by omega)]
      intro c hc
      rcases List.mem_append.mp hc with hc | hc
      · exact ih (n / 10) (Nat.div_lt_self (by omega) (by omega)) c hc
      · simp only [List.mem_singleton] at hc
        subst hc
        exact digitChar_isDigit _ (Nat.mod_lt _ (by omega))

theorem toDigits_head (n : Nat) (h0 : n ≠ 0) :
    (Nat.toDigits 10 n).head? ≠ some '0' := by
  induction n using Nat.strong_induction_on with
  | _ n ih =>
    by_cases h : n < 10
    · rw [toDigits_of_lt n h]
      simpa using digitChar_ne_zero n h h0
    · rw [toDigits_of_ge n (by omega)]
      have hne := toDigits_ne_nil (n / 10)
      rw [List.head?_append_of_ne_nil _ hne]
      exact ih (n / 10) (Nat.div_lt_self (by omega) (by omega)) (by omega)

theorem read_digits_toDigits (n : Nat) : read_digits (Nat.toDigits 10 n) = n := by
  induction n using Nat.strong_induction_on with
  | _ n ih =>
    by_cases h : n < 10
    · rw [toDigits_of_lt n h]
      simpa [read_digits] using digitChar_value n h
    · rw [toDigits_of_ge n (by omega)]
      have ih2 := ih (n / 10) (Nat.div_lt_self (by omega) (by omega))
      have hv := digitChar_value (n % 10) (Nat.mod_lt _ (by omega))
      simp only [read_digits] at ih2 ⊢
      rw [List.foldl_append, ih2]
      simp only [List.foldl_cons, List.foldl_nil]
      rw [hv]
      omega

theorem canonical_toDigits (n : Nat) : canonical_digits (Nat.toDigits 10 n) := by
  refine ⟨toDigits_ne_nil n, toDigits_isDigit n, ?_⟩
  intro h
  by_cases h0 : n = 0
  · subst h0; rfl
  · exact absurd h (toDigits_head n h0)

theorem read_decimal_of_head (ds : CStr) (h : ds.head? ≠ some '-') :
    read_decimal ds = (read_digits ds : Int) := by
  unfold read_decimal
  split
  · exact absurd rfl h
  · rfl

theorem read_decimal_toDigits (m : Nat) :
    read_decimal (Nat.toDigits 10 m) = (m : Int) := by
  have hne := toDigits_ne_nil m
  have hdig := toDigits_isDigit m
  rw [read_decimal_of_head, read_digits_toDigits]
  obtain ⟨c, cs, hcs⟩ := List.exists_cons_of_ne_nil hne
  rw [hcs] at hdig ⊢
  intro h
  simp only [List.head?_cons, Option.some.injEq] at h
  have := hdig c (by simp)
  rw [h] at this
  exact absurd this (by decide)

theorem fmt_unsigned_of_lt (w v : Nat) (h : v < 2 ^ w) :
    fmt_unsigned w v = Nat.toDigits 10 v := by
  simp [fmt_unsigned, Nat.mod_eq_of_lt h]

theorem fmt_signed_of_wrap (w : Nat) (v : Int) (h : wrap_signed w v = v) :
    fmt_signed w v
      = if v < 0 then '-' :: Nat.toDigits 10 v.natAbs
        else Nat.toDigits 10 v.toNat := by
  simp [fmt_signed, h]

theorem to_stream_of_integer_value (a : lwes_event_attribute) (n : Int)
    (h : integer_value a = some n) :
    lwes_event_attribute_to_stream a
      = if n < 0 then '-' :: Nat.toDigits 10 n.natAbs
        else Nat.toDigits 10 n.toNat := by
  cases a with
  | U_INT_16 v =>
    simp only [integer_value] at h
    split at h
    · rename_i hv
      simp only [Option.some.injEq] at h
      subst h
      have : ¬ ((v : Int) < 0) := by omega
      simp only [lwes_event_attribute_to_stream, lwes_U_INT_16_to_stream,
        fmt_unsigned_of_lt 16 v hv, if_neg this, Int.toNat_ofNat]
    · exact absurd h (by simp)
  | U_INT_32 v =>
    simp only [integer_value] at h
    split at h
    · rename_i hv
      simp only [Option.some.injEq] at h
      subst h
      have : ¬ ((v : Int) < 0) := by omega
      simp only [lwes_event_attribute_to_stream, lwes_U_INT_32_to_stream,
        fmt_unsigned_of_lt 32 v hv, if_neg this, Int.toNat_ofNat]
    · exact absurd h (by simp)
  | U_INT_64 v =>
    simp only [integer_value] at h
    split at h
    · rename_i hv
      simp only [Option.some.injEq] at h
      subst h
      have : ¬ ((v : Int) < 0) := by omega
      simp only [lwes_event_attribute_to_stream, lwes_U_INT_64_to_stream,
        fmt_unsigned_of_lt 64 v hv, if_neg this, Int.toNat_ofNat]
    · exact absurd h (by simp)
  | INT_16 v =>
    simp only [integer_value] at h
    split at h
    · rename_i hv
      simp only [Option.some.injEq] at h
      subst h
      have hw : wrap_signed 16 v = v := by
        simp only [wrap_signed]
        norm_num at hv ⊢
        omega
      simp only [lwes_event_attribute_to_stream, lwes_INT_16_to_stream,
        fmt_signed_of_wrap 16 v hw]
    · exact absurd h (by simp)
  | INT_32 v =>
    simp only [integer_value] at h
    split at h
    · rename_i hv
      simp only [Option.some.injEq] at h
      subst h
      have hw : wrap_signed 32 v = v := by
        simp only [wrap_signed]
        norm_num at hv ⊢
        omega
      simp only [lwes_event_attribute_to_stream, lwes_INT_32_to_stream,
        fmt_signed_of_wrap 32 v hw]
    · exact absurd h (by simp)
  | INT_64 v =>
    simp only [integer_value] at h
    split at h
    · rename_i hv
      simp only [Option.some.injEq] at h
      subst h
      have hw : wrap_signed 64 v = v := by
        simp only [wrap_signed]
        norm_num at hv ⊢
        omega
      simp only [lwes_event_attribute_to_stream, lwes_INT_64_to_stream,
        fmt_signed_of_wrap 64 v hw]
    · exact absurd h (by simp)
  | BOOLEAN v => simp [integer_value] at h
  | IP_ADDR b1 b2 b3 b4 => simp [integer_value] at h
  | STRING s => simp [integer_value] at h
  | UNDEFINED tag => simp [integer_value] at h

theorem read_decimal_to_stream (a : lwes_event_attribute) (n : Int)
    (h : integer_value a = some n) :
    read_decimal (lwes_event_attribute_to_stream a) = n := by
  rw [to_stream_of_integer_value a n h]
  by_cases hn : n < 0
  · rw [if_pos hn]
    simp only [read_decimal, read_digits_toDigits]
    omega
  · rw [if_neg hn, read_decimal_toDigits]
    omega

theorem integer_value_not_undefined (a : lwes_event_attribute) (n : Int)
    (h : integer_value a = some n) : ∀ tag, a ≠ .UNDEFINED tag := by
  intro tag ha
  subst ha
  simp [integer_value] at h

/-- C15: an integer attribute whose value `n` lies within its variant's range
is rendered, by both formatters, as the decimal numeral of `n`: a leading
minus sign exactly when `n` is negative, then at least one digit, digits only
(so no plus sign and no separator), no leading zero except for the single
digit 0; reading the text back gives `n`, so two in-range integer attributes
with the same text hold the same integer. -/
theorem integer_rendering (a : lwes_event_attribute) (n : Int)
    (h : integer_value a = some n) :
    (lwes_event_attribute_to_string a).2
        = some (lwes_event_attribute_to_stream a)
    ∧ (if n < 0 then
        ∃ ds, lwes_event_attribute_to_stream a = '-' :: ds
          ∧ canonical_digits ds
      else canonical_digits (lwes_event_attribute_to_stream a))
    ∧ '+' ∉ lwes_event_attribute_to_stream a
    ∧ read_decimal (lwes_event_attribute_to_stream a) = n
    ∧ ∀ (b : lwes_event_attribute) (m : Int), integer_value b = some m →
        lwes_event_attribute_to_stream b = lwes_event_attribute_to_stream a →
        m = n := by
  have hform := to_stream_of_integer_value a n h
  have hread := read_decimal_to_stream a n h
  have hplus : ∀ k : Nat, '+' ∉ Nat.toDigits 10 k := by
    intro k hk
    exact absurd (toDigits_isDigit k '+' hk) (by decide)
  refine ⟨?_, ?_, ?_, hread, ?_⟩
  · rw [to_string_of_known_type a (integer_value_not_undefined a n h)]
  · by_cases hn : n < 0
    · rw [if_pos hn]
      rw [if_pos hn] at hform
      exact ⟨_, hform, canonical_toDigits _⟩
    · rw [if_neg hn]
      rw [if_neg hn] at hform
      rw [hform]
      exact canonical_toDigits _
  · rw [hform]
    by_cases hn : n < 0
    · rw [if_pos hn]
      simp only [List.mem_cons, not_or]
      exact ⟨by decide, hplus _⟩
    · rw [if_neg hn]
      exact hplus _
  · intro b m hb heq
    have := read_decimal_to_stream b m hb
    rw [heq, hread] at this
    exact this.symm

/-- C15, at the attribute Int16 -5, rendered as "-5", and at UInt16 0,
rendered as "0". -/
theorem integer_rendering_witness :
    integer_value (.INT_16 (-5)) = some (-5)
    ∧ lwes_event_attribute_to_stream (.INT_16 (-5)) = "-5".toList
    ∧ lwes_event_attribute_to_stream (.U_INT_16 0) = "0".toList
    ∧ read_decimal (lwes_event_attribute_to_stream (.INT_16 (-5))) = -5 :=
  ⟨by decide, by decide, by decide,
    (integer_rendering (.INT_16 (-5)) (-5) (by decide)).2.2.2.1⟩

end Lwes
